import Mathlib

/-!
odie: a line-oriented markup to HTML translator

A shallow embedding of `src/odie.c`.

* A C string is the list of its characters before the terminating NUL; the
  end of the list is the terminator.
* The output stream is append-only, so every writer returns the fragment it
  appends.
* The style state is the `int` bit mask of the source, kept as a natural
  number (only `|`, `&` and `& ~` with positive constants are ever applied).
* Behaviour the C standard leaves undefined (a read past the terminator, a
  write past a fixed-size buffer) is a `Fault`.
-/

namespace Odie

/-! ## Characters that are awkward to write as literals -/

/-- The backslash character. -/
abbrev BSL : Char := Char.ofNat 92

/-- The backtick character. -/
abbrev BTK : Char := Char.ofNat 96

/-- The double-quote character. -/
abbrev DQT : Char := Char.ofNat 34

/-- The apostrophe character. -/
abbrev APO : Char := Char.ofNat 39

/-! ## Faults -/

/-- Ways a run of the model stops without a result: `fuel` is the recursion
budget of the model running out, the other two are undefined behaviour of the
C program (`overread`: reading past a terminator, `overflow`: writing past the
end of a fixed-size buffer). -/
inductive Fault where
  | fuel
  | overread
  | overflow
deriving DecidableEq, Repr

/-- A result or a fault. -/
abbrev Res (α : Type) := Except Fault α

instance {α : Type} [DecidableEq α] : DecidableEq (Res α)
  | .ok a, .ok b => if h : a = b then isTrue (by rw [h]) else isFalse (by intro e; cases e; exact h rfl)
  | .error a, .error b =>
    if h : a = b then isTrue (by rw [h]) else isFalse (by intro e; cases e; exact h rfl)
  | .ok _, .error _ => isFalse (by intro e; cases e)
  | .error _, .ok _ => isFalse (by intro e; cases e)

/-- Prefix a fragment to the output of a run. -/
def emit {α : Type} (o : List Char) : Res (List Char × α) → Res (List Char × α)
  | .ok (o', a) => .ok (o ++ o', a)
  | .error e => .error e

/-! ## The style flags (odie.c:11-22) -/

def PRE : Nat := 1 <<< 0
def CODE : Nat := 1 <<< 1
def EM : Nat := 1 <<< 2
def STRONG : Nat := 1 <<< 3
def STRIKE : Nat := 1 <<< 4
def H1 : Nat := 1 <<< 5
def H2 : Nat := 1 <<< 6
def H3 : Nat := 1 <<< 7
def LIST : Nat := 1 <<< 8
def QUOTE : Nat := 1 <<< 9

/-! ## String helpers (odie.c:29-45) -/

/-- `copy_until(dst, src, chars)` (odie.c:29-36). `room` is the number of
bytes available at `dst`. Returns the copied token and the remaining source.
A backslash copies itself and the next character unconditionally; when the
next character is the terminator the source pointer steps past it. -/
def copy_until : Nat → List Char → List Char → Res (List Char × List Char)
  | room, [], _ => if room = 0 then .error .overflow else .ok ([], [])
  | room, c :: cs, chars =>
    if c ∈ chars then
      if room = 0 then .error .overflow else .ok ([], c :: cs)
    else if c = BSL then
      if room = 0 then .error .overflow else
      match cs with
      | [] => if room = 1 then .error .overflow else .error .overread
      | d :: ds =>
        if room = 1 then .error .overflow else
        match copy_until (room - 2) ds chars with
        | .ok (tok, rest) => .ok (c :: d :: tok, rest)
        | .error e => .error e
    else
      if room = 0 then .error .overflow else
      match copy_until (room - 1) cs chars with
      | .ok (tok, rest) => .ok (c :: tok, rest)
      | .error e => .error e

/-- `consume(&p, expect)` (odie.c:38-45): `some` of the advanced pointer when
`p` starts with `expect`, `none` (pointer unchanged) otherwise. -/
def consume : List Char → List Char → Option (List Char)
  | p, [] => some p
  | [], _ :: _ => none
  | c :: q, e :: es => if c ≠ e then none else consume q es

/-! ## File content writers (odie.c:47-65) -/

/-- `write_fp` (odie.c:47-50): copy the bytes of a file to the output. -/
def write_fp (bytes : List Nat) : List Char :=
  bytes.map Char.ofNat

/-- The encoding table `t` of `write_b64_fp` (odie.c:53). -/
def b64_table : List Char :=
  "ABCDEFGHIJKLMNOPQRSTUVWXYZabcdefghijklmnopqrstuvwxyz0123456789+/".data

/-- The word `x` of `write_b64_fp` (odie.c:59); each operand is an
`unsigned char`. -/
def b64_word (b0 b1 b2 : Nat) : Nat :=
  ((b0 % 256) <<< 16) ||| ((b1 % 256) <<< 8) ||| (b2 % 256)

/-- The table entry selected by `(x >> s) & 0x3f`. -/
def b64_pick (x s : Nat) : Char :=
  b64_table.getD ((x >>> s) &&& 0x3f) 'A'

/-- `write_b64_fp` (odie.c:52-65): `fread` delivers three bytes at a time and
fewer only at the end of the file. -/
def write_b64_fp : List Nat → List Char
  | [] => []
  | [b0] =>
    let x := b64_word b0 0 0
    [b64_pick x 18, b64_pick x 12, '=', '=']
  | [b0, b1] =>
    let x := b64_word b0 b1 0
    [b64_pick x 18, b64_pick x 12, b64_pick x 6, '=']
  | b0 :: b1 :: b2 :: rest =>
    let x := b64_word b0 b1 b2
    [b64_pick x 18, b64_pick x 12, b64_pick x 6, b64_pick x 0] ++ write_b64_fp rest

/-- `strstr(hay, needle) != NULL`. -/
def strstr : List Char → List Char → Bool
  | [], needle => needle.isEmpty
  | c :: cs, needle => needle.isPrefixOf (c :: cs) || strstr cs needle

/-! ## Inline rendering (odie.c:69-137) -/

/-- The `flags & ~f` of `edge` on a non-negative mask: the bits of `flags`
that are not bits of `f`. -/
def and_not (flags f : Nat) : Nat :=
  flags ^^^ (flags &&& f)

/-- `edge` (odie.c:103-110): close the tag and clear `f` when `f` is set in
`flags`, else open the tag and set `f`. -/
def edge (flags f : Nat) (tag : List Char) : List Char × Nat :=
  if flags &&& f ≠ 0 then
    ("</".data ++ tag ++ ">".data, and_not flags f)
  else
    ("<".data ++ tag ++ ">".data, flags ||| f)

/-- The `switch` of `write_text` for a character other than the terminator
(odie.c:129-134). -/
def put_escaped (c : Char) : List Char :=
  if c = '<' then "&lt;".data
  else if c = '>' then "&gt;".data
  else if c = '&' then "&amp;".data
  else if c = DQT then "&quot;".data
  else if c = APO then "&apos;".data
  else [c]

/-- The file system seen by `fopen(name, "rb")`: the bytes of the file, or
`none` when it cannot be opened. -/
abbrev Files := List Char → Option (List Nat)

/-- The step `if (*p == '\\') { p++; }` of `write_text` (odie.c:126). -/
def skip_backslash : List Char → List Char
  | [] => []
  | c :: q => if c = BSL then q else c :: q

mutual

/-- `write_embedded` (odie.c:69-86). Returns the output, the advanced pointer
and the flags. -/
def write_embedded_go (fs : Files) : Nat → List Char → Nat → Res (List Char × List Char × Nat)
  | 0, _, _ => .error .fuel
  | n + 1, p, flags =>
    match copy_until 512 p "\n :]*".data with
    | .error e => .error e
    | .ok (name, p1) =>
      match fs name with
      | some bytes =>
        if strstr name ".png".data || strstr name ".jpg".data || strstr name ".gif".data then
          .ok ("<img src=\"data:image;base64, ".data ++ write_b64_fp bytes ++ "\"/>".data, p1, flags)
        else
          .ok (write_fp bytes, p1, flags)
      | none =>
        match write_text_go fs n name flags with
        | .error e => .error e
        | .ok (o, fl) => .ok ('@' :: o, p1, fl)

/-- `write_link` (odie.c:88-101). Returns the output, the advanced pointer and
the flags. -/
def write_link_go (fs : Files) : Nat → List Char → Nat → Res (List Char × List Char × Nat)
  | 0, _, _ => .error .fuel
  | n + 1, p, flags =>
    match copy_until 512 p "]".data with
    | .error e => .error e
    | .ok (text, p1) =>
      match consume p1 "](".data with
      | some p2 =>
        match copy_until 512 p2 ")".data with
        | .error e => .error e
        | .ok (url, p3) =>
          let p4 := (consume p3 ")".data).getD p3
          match write_text_go fs n url PRE with
          | .error e => .error e
          | .ok (ou, _) =>
            match write_text_go fs n text flags with
            | .error e => .error e
            | .ok (ot, _) =>
              .ok ("<a href=\"".data ++ ou ++ "\">".data ++ ot ++ "</a>".data, p4, flags)
      | none =>
        match write_text_go fs n text flags with
        | .error e => .error e
        | .ok (o, fl) => .ok ('[' :: o, p1, fl)

/-- `write_text` (odie.c:112-137): one turn of the scanning loop, then the
rest of the loop. -/
def write_text_go (fs : Files) : Nat → List Char → Nat → Res (List Char × Nat)
  | 0, _, _ => .error .fuel
  | n + 1, p, flags =>
    -- odie.c:126-135
    let plain : Res (List Char × Nat) :=
      match skip_backslash p with
      | [] => .ok ([], flags)
      | c :: q => emit (put_escaped c) (write_text_go fs n q flags)
    if flags &&& PRE = 0 then
      match consume p [BTK] with
      | some q => emit (edge flags CODE "code".data).1 (write_text_go fs n q (edge flags CODE "code".data).2)
      | none =>
        if flags &&& CODE = 0 then
          match consume p "~~".data with
          | some q =>
            emit (edge flags STRIKE "strike".data).1
              (write_text_go fs n q (edge flags STRIKE "strike".data).2)
          | none =>
            match consume p "*".data with
            | some q =>
              emit (edge flags EM "em".data).1 (write_text_go fs n q (edge flags EM "em".data).2)
            | none =>
              match consume p "_".data with
              | some q =>
                emit (edge flags STRONG "strong".data).1
                  (write_text_go fs n q (edge flags STRONG "strong".data).2)
              | none =>
                match consume p "@".data with
                | some q =>
                  match write_embedded_go fs n q flags with
                  | .error e => .error e
                  | .ok (o, q1, fl) => emit o (write_text_go fs n q1 fl)
                | none =>
                  match consume p "[".data with
                  | some q =>
                    match write_link_go fs n q flags with
                    | .error e => .error e
                    | .ok (o, q1, fl) => emit o (write_text_go fs n q1 fl)
                  | none => plain
        else plain
    else plain

end

/-- `write_text(fp, text, flags)`: the output and the returned flags. The
budget covers every nested call: each one is on a string no longer than the
text that remains. -/
def write_text (fs : Files) (text : List Char) (flags : Nat) : Res (List Char × Nat) :=
  write_text_go fs (2 * text.length + 1) text flags

/-- `write_embedded(fp, &p, flags)`: the output, the advanced pointer and the
returned flags. -/
def write_embedded (fs : Files) (p : List Char) (flags : Nat) :
    Res (List Char × List Char × Nat) :=
  write_embedded_go fs (2 * p.length + 2) p flags

/-- `write_link(fp, &p, flags)`: the output, the advanced pointer and the
returned flags. -/
def write_link (fs : Files) (p : List Char) (flags : Nat) :
    Res (List Char × List Char × Nat) :=
  write_link_go fs (2 * p.length + 2) p flags

/-! ## Block processing (odie.c:139-180) -/

/-- `isspace` in the C locale. -/
def isspace (c : Char) : Bool :=
  c = ' ' || c = '\t' || c = '\n' || c = Char.ofNat 11 || c = Char.ofNat 12 || c = '\r'

/-- The loop `while (isspace(*line)) line++` (odie.c:145, 150). -/
def skip_space : List Char → List Char
  | [] => []
  | c :: cs => if isspace c then skip_space cs else c :: cs

/-- The quote rule (odie.c:147-153): output, advanced line, flags. -/
def quote_rule (line : List Char) (flags : Nat) : List Char × List Char × Nat :=
  match consume line ">".data with
  | some l1 =>
    if flags &&& QUOTE = 0 then
      ((edge flags QUOTE "blockquote".data).1, skip_space l1, (edge flags QUOTE "blockquote".data).2)
    else ([], skip_space l1, flags)
  | none =>
    if flags &&& QUOTE ≠ 0 ∧ line = [] then
      ((edge flags QUOTE "blockquote".data).1, line, (edge flags QUOTE "blockquote".data).2)
    else ([], line, flags)

/-- The list rule (odie.c:155-161): output, advanced line, flags. -/
def list_rule (line : List Char) (flags : Nat) : List Char × List Char × Nat :=
  match consume line "* ".data with
  | some l1 =>
    if flags &&& LIST = 0 then
      ((edge flags LIST "ul".data).1 ++ "<li>".data, l1, (edge flags LIST "ul".data).2)
    else ("<li>".data, l1, flags)
  | none =>
    if flags &&& LIST ≠ 0 ∧ line = [] then
      ((edge flags LIST "ul".data).1, line, (edge flags LIST "ul".data).2)
    else ([], line, flags)

/-- One of the three heading tests (odie.c:167-169). -/
def heading_rule (marker : List Char) (f : Nat) (tag : List Char) (line : List Char) (flags : Nat) :
    List Char × List Char × Nat :=
  match consume line marker with
  | some l1 => ((edge flags f tag).1, l1, (edge flags f tag).2)
  | none => ([], line, flags)

/-- One of the three heading closers (odie.c:175-177). -/
def heading_close (f : Nat) (tag : List Char) (flags : Nat) : List Char × Nat :=
  if flags &&& f ≠ 0 then edge flags f tag else ([], flags)

/-- `process_line` (odie.c:139-180): the output and the returned flags. -/
def process_line (fs : Files) (line : List Char) (flags : Nat) : Res (List Char × Nat) :=
  match consume line [BTK, BTK, BTK] with
  | some _ => .ok (edge flags PRE "pre".data)
  | none =>
    if flags &&& PRE ≠ 0 then write_text fs line flags else
    let l0 := skip_space line
    let (oq, l1, f1) := quote_rule l0 flags
    let (ol, l2, f2) := list_rule l1 f1
    let op := if l2 = [] then "<p>".data else []
    let (o1, l3, f3) := heading_rule "# ".data H1 "h1".data l2 f2
    let (o2, l4, f4) := heading_rule "## ".data H2 "h2".data l3 f3
    let (o3, l5, f5) := heading_rule "### ".data H3 "h3".data l4 f4
    match write_text fs l5 f5 with
    | .error e => .error e
    | .ok (ot, f6) =>
      let (c1, f7) := heading_close H1 "h1".data f6
      let (c2, f8) := heading_close H2 "h2".data f7
      let (c3, f9) := heading_close H3 "h3".data f8
      .ok (oq ++ ol ++ op ++ o1 ++ o2 ++ o3 ++ ot ++ c1 ++ c2 ++ c3, f9)

/-- The line loop of `process_file` (odie.c:215-219) from a given state: the
output of all lines and the final flags. -/
def process_lines (fs : Files) : List (List Char) → Nat → Res (List Char × Nat)
  | [], flags => .ok ([], flags)
  | line :: rest, flags =>
    match process_line fs line flags with
    | .error e => .error e
    | .ok (o, f1) => emit o (process_lines fs rest f1)


/-! ## Text that the scanner passes through -/

/-- The five entities, as the specification lists them. -/
def entity_table : List (Char × List Char) :=
  [('<', "&lt;".data), ('>', "&gt;".data), ('&', "&amp;".data),
   (DQT, "&quot;".data), (APO, "&apos;".data)]

/-- The entity of a character that has one, else the character itself. -/
def entity (c : Char) : List Char :=
  (entity_table.lookup c).getD [c]

/-- The character-by-character entity mapping of a text. -/
def escaped (t : List Char) : List Char :=
  (t.map entity).flatten

/-- A text without markup: no backtick, `*`, `_`, `@`, `[` or backslash, and
no two adjacent `~`. -/
def no_markup (t : List Char) : Prop :=
  (∀ c ∈ t, c ≠ BTK ∧ c ≠ '*' ∧ c ≠ '_' ∧ c ≠ '@' ∧ c ≠ '[' ∧ c ≠ BSL)
    ∧ ¬ ("~~".data <:+: t)

instance : DecidablePred no_markup := fun t => by
  unfold no_markup; infer_instance

/-- Every character of `a`, read in state `flags` with `r` after it, reaches
the `switch` of `write_text` as itself: it is not a backslash and no marker
test that is live in `flags` matches at it. -/
def inert (flags : Nat) : List Char → List Char → Prop
  | [], _ => True
  | c :: cs, r =>
    (c ≠ BSL ∧
      (flags &&& PRE = 0 → c ≠ BTK ∧
        (flags &&& CODE = 0 →
          c ≠ '*' ∧ c ≠ '_' ∧ c ≠ '@' ∧ c ≠ '[' ∧ ¬ (c = '~' ∧ (cs ++ r).head? = some '~'))))
    ∧ inert flags cs r


/-! ## Base64 as RFC 4648 describes it -/

/-- The eight bits of a byte, most significant first. -/
def byte_bits (b : Nat) : List Nat :=
  [b / 128 % 2, b / 64 % 2, b / 32 % 2, b / 16 % 2, b / 8 % 2, b / 4 % 2, b / 2 % 2, b % 2]

/-- The values of the 6-bit groups of a bit stream, taken from the left; a
final group of fewer than six bits is completed with zero bits. -/
def sextets : List Nat → List Nat
  | [] => []
  | [a] => [32 * a]
  | [a, b] => [32 * a + 16 * b]
  | [a, b, c] => [32 * a + 16 * b + 8 * c]
  | [a, b, c, d] => [32 * a + 16 * b + 8 * c + 4 * d]
  | [a, b, c, d, e] => [32 * a + 16 * b + 8 * c + 4 * d + 2 * e]
  | a :: b :: c :: d :: e :: f :: rest =>
    (32 * a + 16 * b + 8 * c + 4 * d + 2 * e + f) :: sextets rest

/-- The base64 alphabet of RFC 4648, table 1: `A`-`Z` for 0-25, `a`-`z` for
26-51, `0`-`9` for 52-61, `+` for 62 and `/` for 63. -/
def rfc4648_char (v : Nat) : Char :=
  if v < 26 then Char.ofNat ('A'.toNat + v)
  else if v < 52 then Char.ofNat ('a'.toNat + (v - 26))
  else if v < 62 then Char.ofNat ('0'.toNat + (v - 52))
  else if v = 62 then '+'
  else '/'

/-- The base64 encoding of RFC 4648: the bits of the input in 6-bit groups,
each written as its alphabet character, then `=` up to a multiple of four
characters. -/
def rfc4648_encode (bytes : List Nat) : List Char :=
  let cs := (sextets (bytes.map byte_bits).flatten).map rfc4648_char
  cs ++ List.replicate ((4 - cs.length % 4) % 4) '='


/-! ## Backslash escapes, as the specification describes them -/

/-- A text with its escapes resolved: each backslash is dropped and the
character behind it is kept; a backslash at the very end is dropped. -/
def unbackslash : List Char → List Char
  | [] => []
  | [c] => if c = BSL then [] else [c]
  | c :: d :: r => if c = BSL then d :: unbackslash r else c :: unbackslash (d :: r)


/-! ## File names (odie.c:190-191, 240-241, 296-302) -/

/-- The text `snprintf` leaves in a buffer of 1024 bytes: at most 1023
characters. -/
def snprintf_1024 (s : List Char) : List Char :=
  s.take 1023

/-- The path `process_directory` builds for a directory entry
(odie.c:240-241). -/
def entry_path (dir_name d_name : List Char) : List Char :=
  snprintf_1024 (dir_name ++ "/".data ++ d_name)

/-- The name of the file `process_file` writes for `filename`
(odie.c:190-191). -/
def output_filename (filename : List Char) : List Char :=
  snprintf_1024 (filename ++ ".html".data)

/-- The test of `main` on a directory entry (odie.c:296): longer than three
characters and ending in `.md`. -/
def index_lists (d_name : List Char) : Bool :=
  decide (3 < d_name.length) && (d_name.drop (d_name.length - 3) == ".md".data)

/-- The characters the two `strcpy` calls of `main` store from the start of
the block (odie.c:300-301): the name, then `html` written over its last two
characters. -/
def html_filename_chars (d_name : List Char) : List Char :=
  d_name.take (d_name.length - 2) ++ "html".data

/-- The `html_filename` of `main` (odie.c:298-301): the block has
`strlen(d_name) + 2` bytes and must hold the characters and their
terminator. -/
def html_filename (d_name : List Char) : Res (List Char) :=
  if d_name.length + 2 < (html_filename_chars d_name).length + 1 then .error .overflow
  else .ok (html_filename_chars d_name)

/-! ## Counting tags in the output -/

/-- The number of places in `o` at which `pat` starts. -/
def occurrences (pat : List Char) : List Char → Nat
  | [] => 0
  | c :: r => (if pat.isPrefixOf (c :: r) then 1 else 0) + occurrences pat r


/-! ## The stages of `process_line` -/

/-- The three heading tests of `process_line` in a row (odie.c:166-169): the
output, the rest of the line and the flags. -/
def heading_rules (line : List Char) (flags : Nat) : List Char × List Char × Nat :=
  let h1 := heading_rule "# ".data H1 "h1".data line flags
  let h2 := heading_rule "## ".data H2 "h2".data h1.2.1 h1.2.2
  let h3 := heading_rule "### ".data H3 "h3".data h2.2.1 h2.2.2
  (h1.1 ++ (h2.1 ++ h3.1), h3.2.1, h3.2.2)

/-- The rules of `process_line` before the text is written (odie.c:144-169):
the output so far, the rest of the line and the flags. -/
def block_rules (line : List Char) (flags : Nat) : List Char × List Char × Nat :=
  let q := quote_rule (skip_space line) flags
  let l := list_rule q.2.1 q.2.2
  let h := heading_rules l.2.1 l.2.2
  (q.1 ++ l.1 ++ (if l.2.1 = [] then "<p>".data else []) ++ h.1, h.2.1, h.2.2)

/-- The three heading closers of `process_line` (odie.c:174-177): the output
and the flags. -/
def close_headings (flags : Nat) : List Char × Nat :=
  let a := heading_close H1 "h1".data flags
  let b := heading_close H2 "h2".data a.2
  let c := heading_close H3 "h3".data b.2
  (a.1 ++ b.1 ++ c.1, c.2)


/-- The number of heading opening tags `<h1>`, `<h2>`, `<h3>` in `o`. -/
def heading_opens (o : List Char) : Nat :=
  occurrences "<h1>".data o + occurrences "<h2>".data o + occurrences "<h3>".data o

/-- Where the heading tests of `process_line` read (odie.c:167): the line
behind its leading whitespace, quote marker and list marker. -/
def heading_text (line : List Char) (flags : Nat) : List Char :=
  (list_rule (quote_rule (skip_space line) flags).2.1
    (quote_rule (skip_space line) flags).2.2).2.1

/-- Two heading markers in a row, which two of the three heading tests
(odie.c:167-169) match one after the other. -/
def chained (l : List Char) : Bool :=
  "# ## ".data.isPrefixOf l || "# ### ".data.isPrefixOf l || "## ### ".data.isPrefixOf l

theorem bit_and_ne_zero (x i : Nat) : x &&& 1 <<< i ≠ 0 ↔ x.testBit i = true := by
  rw [Nat.one_shiftLeft]
  constructor
  · intro h
    by_contra hb
    apply h
    apply Nat.eq_of_testBit_eq
    intro k
    simp only [Nat.testBit_and, Nat.testBit_two_pow, Nat.zero_testBit]
    by_cases hk : i = k
    · subst hk; simp [hb]
    · simp [hk]
  · intro h h0
    have := congrArg (fun y => y.testBit i) h0
    simp [Nat.testBit_and, Nat.testBit_two_pow, h] at this

theorem bit_and_eq_zero (x i : Nat) : x &&& 1 <<< i = 0 ↔ x.testBit i = false := by
  have := bit_and_ne_zero x i
  constructor
  · intro h
    by_contra hb
    simp only [Bool.not_eq_false] at hb
    exact (this.mpr hb) h
  · intro h
    by_contra hb
    rw [this.mp hb] at h
    cases h

theorem testBit_and_not (x f k : Nat) :
    (and_not x f).testBit k = (x.testBit k && !f.testBit k) := by
  unfold and_not
  simp only [Nat.testBit_xor, Nat.testBit_and]
  cases x.testBit k <;> cases f.testBit k <;> rfl

theorem testBit_edge (x i k : Nat) (tag : List Char) :
    (edge x (1 <<< i) tag).2.testBit k = if k = i then !x.testBit i else x.testBit k := by
  unfold edge
  by_cases h : x &&& 1 <<< i ≠ 0
  · rw [if_pos h]
    have hb := (bit_and_ne_zero x i).mp h
    simp only [testBit_and_not, Nat.one_shiftLeft, Nat.testBit_two_pow]
    by_cases hk : k = i
    · subst hk; simp [hb]
    · have : ¬ i = k := fun e => hk e.symm
      simp [hk, this]
  · rw [if_neg h]
    have hb := (bit_and_eq_zero x i).mp (by simpa using h)
    simp only [Nat.testBit_or, Nat.one_shiftLeft, Nat.testBit_two_pow]
    by_cases hk : k = i
    · subst hk; simp [hb]
    · have : ¬ i = k := fun e => hk e.symm
      simp [hk, this]

/-- C2: `edge` emits the closing tag and clears `F` when `F` was set, emits
the opening tag and sets `F` otherwise; no other flag changes, and a second
`edge` on the same flag restores the state. -/
theorem edge_toggle (flags i : Nat) (tag : List Char) :
    (edge flags (1 <<< i) tag).1
        = (if flags &&& 1 <<< i ≠ 0 then "</".data ++ tag ++ ">".data
           else "<".data ++ tag ++ ">".data)
    ∧ ((edge flags (1 <<< i) tag).2 &&& 1 <<< i = 0 ↔ flags &&& 1 <<< i ≠ 0)
    ∧ (∀ j, j ≠ i → (edge flags (1 <<< i) tag).2 &&& 1 <<< j = flags &&& 1 <<< j)
    ∧ (edge (edge flags (1 <<< i) tag).2 (1 <<< i) tag).2 = flags := by
  refine ⟨?_, ?_, ?_, ?_⟩
  · unfold edge; split <;> rfl
  · rw [bit_and_eq_zero, bit_and_ne_zero, testBit_edge]; simp
  · intro j hj
    apply Nat.eq_of_testBit_eq
    intro k
    simp only [Nat.testBit_and, testBit_edge]
    by_cases hk : k = i
    · subst hk
      have : (1 <<< j).testBit k = false := by
        rw [Nat.one_shiftLeft, Nat.testBit_two_pow]; simpa using hj
      simp [this]
    · simp [hk]
  · apply Nat.eq_of_testBit_eq
    intro k
    simp only [testBit_edge]
    by_cases hk : k = i
    · subst hk; simp
    · simp [hk]

theorem edge_toggle_witness :
    (edge (edge 0 (1 <<< 2) "em".data).2 (1 <<< 2) "em".data).2 = 0 :=
  (edge_toggle 0 2 "em".data).2.2.2

theorem put_escaped_eq_entity (c : Char) : put_escaped c = entity c := by
  unfold put_escaped entity entity_table
  by_cases h1 : c = '<'
  · subst h1; rfl
  by_cases h2 : c = '>'
  · subst h2; rfl
  by_cases h3 : c = '&'
  · subst h3; rfl
  by_cases h4 : c = DQT
  · subst h4; rfl
  by_cases h5 : c = APO
  · subst h5; rfl
  simp [List.lookup, h1, h2, h3, h4, h5, beq_eq_false_iff_ne.mpr h1, beq_eq_false_iff_ne.mpr h2, beq_eq_false_iff_ne.mpr h3, beq_eq_false_iff_ne.mpr h4, beq_eq_false_iff_ne.mpr h5]

theorem emit_nil {α : Type} (x : Res (List Char × α)) : emit [] x = x := by
  cases x with
  | error e => rfl
  | ok v => cases v; rfl

theorem emit_emit {α : Type} (a b : List Char) (x : Res (List Char × α)) :
    emit a (emit b x) = emit (a ++ b) x := by
  cases x with
  | error e => rfl
  | ok v => cases v; simp [emit]

theorem consume_cons_ne {c e : Char} (h : c ≠ e) (q es : List Char) :
    consume (c :: q) (e :: es) = none := by
  simp [consume, h]

theorem consume_tilde {c : Char} {q : List Char} (h : ¬ (c = '~' ∧ q.head? = some '~')) :
    consume (c :: q) "~~".data = none := by
  by_cases hc : c = '~'
  · subst hc
    cases q with
    | nil => simp [consume]
    | cons d r =>
      have hd : d ≠ '~' := by
        intro e; apply h; simp [e]
      simp [consume, hd]
  · exact consume_cons_ne hc _ _

theorem write_text_go_nil (fs : Files) (n flags : Nat) :
    write_text_go fs (n + 1) [] flags = .ok ([], flags) := by
  unfold write_text_go
  simp [consume, skip_backslash]

/-- One turn of the loop at an inert character. -/
theorem write_text_go_inert_cons (fs : Files) (n flags : Nat) (c : Char) (q : List Char)
    (hb : c ≠ BSL)
    (hm : flags &&& PRE = 0 → c ≠ BTK ∧
        (flags &&& CODE = 0 →
          c ≠ '*' ∧ c ≠ '_' ∧ c ≠ '@' ∧ c ≠ '[' ∧ ¬ (c = '~' ∧ q.head? = some '~'))) :
    write_text_go fs (n + 1) (c :: q) flags
      = emit (put_escaped c) (write_text_go fs n q flags) := by
  rw [write_text_go]
  by_cases hp : flags &&& PRE = 0
  · obtain ⟨h1, h2⟩ := hm hp
    by_cases hc : flags &&& CODE = 0
    · obtain ⟨h3, h4, h5, h6, h7⟩ := h2 hc
      simp [skip_backslash, hp, hc, hb, consume_cons_ne h1, consume_cons_ne h3, consume_cons_ne h4,
        consume_cons_ne h5, consume_cons_ne h6, consume_tilde h7]
    · simp [skip_backslash, hp, hc, hb, consume_cons_ne h1]
  · simp [skip_backslash, hp, hb]

/-- The loop over an inert stretch of text. -/
theorem write_text_go_inert (fs : Files) (flags : Nat) (a r : List Char) (n : Nat)
    (h : inert flags a r) :
    write_text_go fs (n + a.length) (a ++ r) flags
      = emit (escaped a) (write_text_go fs n r flags) := by
  induction a with
  | nil => simp [escaped, emit_nil]
  | cons c cs ih =>
    obtain ⟨⟨hb, hm⟩, hcs⟩ := h
    have e : n + (c :: cs).length = (n + cs.length) + 1 := by simp [Nat.add_assoc]
    rw [e, List.cons_append, write_text_go_inert_cons fs _ flags c (cs ++ r) hb hm, ih hcs,
      emit_emit, put_escaped_eq_entity]
    simp [escaped]

theorem no_markup_cons {c : Char} {cs : List Char} (h : no_markup (c :: cs)) :
    (c ≠ BTK ∧ c ≠ '*' ∧ c ≠ '_' ∧ c ≠ '@' ∧ c ≠ '[' ∧ c ≠ BSL)
      ∧ ¬ (c = '~' ∧ cs.head? = some '~') ∧ no_markup cs := by
  obtain ⟨h1, h2⟩ := h
  refine ⟨h1 c (List.mem_cons_self c cs), ?_, fun d hd => h1 d (List.mem_cons_of_mem c hd), ?_⟩
  · rintro ⟨rfl, hh⟩
    apply h2
    cases cs with
    | nil => simp at hh
    | cons d r =>
      simp only [List.head?_cons, Option.some.injEq] at hh
      subst hh
      exact ⟨[], r, rfl⟩
  · intro hi
    exact h2 (hi.trans (List.suffix_cons c cs).isInfix)

/-- Markup-free text is inert in every state, provided what follows it does
not complete a `~~` pair. -/
theorem inert_of_no_markup (flags : Nat) (t r : List Char) (h : no_markup t)
    (hr : r.head? ≠ some '~') : inert flags t r := by
  induction t with
  | nil => trivial
  | cons c cs ih =>
    obtain ⟨⟨h1, h2, h3, h4, h5, h6⟩, h7, h8⟩ := no_markup_cons h
    refine ⟨⟨h6, fun _ => ⟨h1, fun _ => ⟨h2, h3, h4, h5, ?_⟩⟩⟩, ih h8⟩
    rintro ⟨hc, hh⟩
    cases cs with
    | nil => exact hr (by simpa using hh)
    | cons d r2 => exact h7 ⟨hc, by simpa using hh⟩

/-- With `PRE` set every text without a backslash is inert. -/
theorem inert_of_pre (flags : Nat) (t r : List Char) (hp : flags &&& PRE ≠ 0)
    (hb : BSL ∉ t) : inert flags t r := by
  induction t with
  | nil => trivial
  | cons c cs ih =>
    refine ⟨⟨?_, fun h0 => absurd h0 hp⟩, ih (fun hm => hb (List.mem_cons_of_mem c hm))⟩
    intro e
    exact hb (e ▸ List.mem_cons_self c cs)

/-- An inert text on its own renders as its entity mapping and leaves the
state alone. -/
theorem write_text_inert (fs : Files) (flags : Nat) (t : List Char) (h : inert flags t []) :
    write_text fs t flags = .ok (escaped t, flags) := by
  unfold write_text
  have e : 2 * t.length + 1 = (t.length + 1) + t.length := by omega
  have := write_text_go_inert fs flags t [] (t.length + 1) h
  rw [List.append_nil] at this
  rw [e, this, write_text_go_nil]
  simp [emit]

/-- Markup-free text renders as its entity mapping in every state. -/
theorem write_text_plain (fs : Files) (flags : Nat) (t : List Char) (h : no_markup t) :
    write_text fs t flags = .ok (escaped t, flags) :=
  write_text_inert fs flags t (inert_of_no_markup flags t [] h (by simp))

theorem escaped_of_no_special (t : List Char)
    (h : ∀ c ∈ t, c ≠ '<' ∧ c ≠ '>' ∧ c ≠ '&' ∧ c ≠ DQT ∧ c ≠ APO) : escaped t = t := by
  induction t with
  | nil => rfl
  | cons c cs ih =>
    obtain ⟨h1, h2, h3, h4, h5⟩ := h c (List.mem_cons_self c cs)
    have hc : entity c = [c] := by
      rw [← put_escaped_eq_entity]; simp [put_escaped, h1, h2, h3, h4, h5]
    have := ih (fun d hd => h d (List.mem_cons_of_mem c hd))
    simp only [escaped, List.map_cons, List.flatten_cons] at this ⊢
    rw [hc, this]; rfl

/-- C1: on markup-free text `write_text` emits the character-by-character
entity mapping and returns the state unchanged; the mapping sends the five
special characters to their entities and every other character to itself, so
text without special characters is emitted as it is. -/
theorem write_text_no_markup (fs : Files) (flags : Nat) (t : List Char) (h : no_markup t) :
    write_text fs t flags = .ok (escaped t, flags)
    ∧ (entity '<' = "&lt;".data ∧ entity '>' = "&gt;".data ∧ entity '&' = "&amp;".data
        ∧ entity DQT = "&quot;".data ∧ entity APO = "&apos;".data)
    ∧ (∀ c : Char, c ≠ '<' → c ≠ '>' → c ≠ '&' → c ≠ DQT → c ≠ APO → entity c = [c])
    ∧ ((∀ c ∈ t, c ≠ '<' ∧ c ≠ '>' ∧ c ≠ '&' ∧ c ≠ DQT ∧ c ≠ APO) →
        write_text fs t flags = .ok (t, flags)) := by
  have main := write_text_plain fs flags t h
  refine ⟨main, ⟨rfl, rfl, rfl, rfl, rfl⟩, ?_, ?_⟩
  · intro c h1 h2 h3 h4 h5
    rw [← put_escaped_eq_entity]; simp [put_escaped, h1, h2, h3, h4, h5]
  · intro hs
    rw [main, escaped_of_no_special t hs]

theorem write_text_no_markup_witness :
    write_text (fun _ => none) "a < b & c ~ d".data 5
      = .ok ("a &lt; b &amp; c ~ d".data, 5) :=
  (write_text_no_markup (fun _ => none) 5 "a < b & c ~ d".data (by decide)).1

/-! ## The recursion budget -/

theorem copy_until_ok (chars : List Char) :
    ∀ (k : Nat) (p : List Char) (room : Nat) (tok rest : List Char), p.length ≤ k →
      copy_until room p chars = .ok (tok, rest) → tok ++ rest = p := by
  intro k
  induction k with
  | zero =>
    intro p room tok rest hk h
    have hp : p = [] := List.length_eq_zero.mp (by omega)
    subst hp
    unfold copy_until at h
    split at h
    · cases h
    · cases h; rfl
  | succ k ih =>
    intro p room tok rest hk h
    cases p with
    | nil =>
      unfold copy_until at h
      split at h
      · cases h
      · cases h; rfl
    | cons c cs =>
      unfold copy_until at h
      split at h
      · split at h
        · cases h
        · cases h; rfl
      · split at h
        · split at h
          · cases h
          · split at h
            · split at h <;> cases h
            · rename_i d ds
              split at h
              · cases h
              · split at h
                · rename_i tok2 rest2 heq
                  cases h
                  have := ih ds _ tok2 rest (by simp at hk; omega) heq
                  simp [this]
                · cases h
        · split at h
          · cases h
          · split at h
            · rename_i tok2 rest2 heq
              cases h
              have := ih cs _ tok2 rest (by simp at hk; omega) heq
              simp [this]
            · cases h

theorem copy_until_append {room : Nat} {p chars tok rest : List Char}
    (h : copy_until room p chars = .ok (tok, rest)) : tok ++ rest = p :=
  copy_until_ok chars p.length p room tok rest (Nat.le_refl _) h

theorem consume_some : ∀ (e p q : List Char), consume p e = some q → p = e ++ q := by
  intro e
  induction e with
  | nil => intro p q h; cases p <;> simp [consume] at h <;> simp [h]
  | cons x xs ih =>
    intro p q h
    cases p with
    | nil => simp [consume] at h
    | cons c cs =>
      simp only [consume] at h
      split at h
      · cases h
      · rename_i hne
        have hc : c = x := by simpa using hne
        rw [ih cs q h, hc]; rfl

theorem copy_until_length {room : Nat} {p chars tok rest : List Char}
    (h : copy_until room p chars = .ok (tok, rest)) :
    tok.length ≤ p.length ∧ rest.length ≤ p.length := by
  have := congrArg List.length (copy_until_append h)
  simp only [List.length_append] at this
  omega

theorem consume_length {e p q : List Char} (h : consume p e = some q) :
    q.length ≤ p.length := by
  have := congrArg List.length (consume_some e p q h)
  simp only [List.length_append] at this
  omega

theorem write_embedded_go_rest (fs : Files) (n : Nat) (q : List Char) (flags : Nat)
    (o q1 : List Char) (fl : Nat) (h : write_embedded_go fs n q flags = .ok (o, q1, fl)) :
    q1.length ≤ q.length := by
  cases n with
  | zero => simp [write_embedded_go] at h
  | succ n =>
    rw [write_embedded_go] at h
    split at h
    · cases h
    · rename_i name p1 hcu
      have hl := (copy_until_length hcu).2
      split at h
      · split at h <;> (cases h; exact hl)
      · split at h
        · cases h
        · cases h; exact hl

theorem write_link_go_rest (fs : Files) (n : Nat) (q : List Char) (flags : Nat)
    (o q1 : List Char) (fl : Nat) (h : write_link_go fs n q flags = .ok (o, q1, fl)) :
    q1.length ≤ q.length := by
  cases n with
  | zero => simp [write_link_go] at h
  | succ n =>
    rw [write_link_go] at h
    split at h
    · cases h
    · rename_i text p1 hcu
      have hl := (copy_until_length hcu).2
      split at h
      · rename_i p2 hc2
        have hl2 := consume_length hc2
        split at h
        · cases h
        · rename_i url p3 hcu3
          have hl3 := (copy_until_length hcu3).2
          have hl4 : ∀ e, ((consume p3 e).getD p3).length ≤ p3.length := by
            intro e
            cases hc : consume p3 e with
            | none => simp
            | some p4 => simpa using consume_length hc
          simp only at h
          split at h
          · cases h
          · split at h
            · cases h
            · cases h; exact le_trans (hl4 _) (by omega)
      · split at h
        · cases h
        · cases h; exact hl

theorem skip_backslash_length {p q : List Char} {c : Char} (h : skip_backslash p = c :: q) :
    q.length < p.length := by
  cases p with
  | nil => simp [skip_backslash] at h
  | cons d ds =>
    simp only [skip_backslash] at h
    split at h
    · subst h; simp only [List.length_cons]; omega
    · cases h; simp

theorem consume_length_lt {e p q : List Char} (he : e ≠ []) (h : consume p e = some q) :
    q.length < p.length := by
  have := congrArg List.length (consume_some e p q h)
  simp only [List.length_append] at this
  have : 0 < e.length := List.length_pos.mpr he
  omega

/-- More budget than twice the length of the text changes nothing. -/
theorem go_stable (fs : Files) : ∀ n : Nat,
    (∀ m p s, n ≤ m → 2 * p.length + 1 ≤ n →
      write_text_go fs m p s = write_text_go fs n p s)
    ∧ (∀ m p s, n ≤ m → 2 * p.length + 2 ≤ n →
      write_embedded_go fs m p s = write_embedded_go fs n p s)
    ∧ (∀ m p s, n ≤ m → 2 * p.length + 2 ≤ n →
      write_link_go fs m p s = write_link_go fs n p s) := by
  intro n
  induction n with
  | zero =>
    refine ⟨?_, ?_, ?_⟩ <;> (intro m p s _ h; omega)
  | succ n ih =>
    obtain ⟨ihT, ihE, ihL⟩ := ih
    refine ⟨?_, ?_, ?_⟩
    · intro m p s hm hp
      obtain ⟨m', rfl⟩ : ∃ m', m = m' + 1 := ⟨m - 1, by omega⟩
      have hm' : n ≤ m' := by omega
      have hwt : ∀ q s', q.length < p.length →
          write_text_go fs m' q s' = write_text_go fs n q s' :=
        fun q s' hq => ihT m' q s' hm' (by omega)
      have hwe : ∀ q s', q.length < p.length →
          write_embedded_go fs m' q s' = write_embedded_go fs n q s' :=
        fun q s' hq => ihE m' q s' hm' (by omega)
      have hwl : ∀ q s', q.length < p.length →
          write_link_go fs m' q s' = write_link_go fs n q s' :=
        fun q s' hq => ihL m' q s' hm' (by omega)
      rw [write_text_go, write_text_go]
      simp only []
      split
      · split
        · rename_i q hq
          rw [hwt q _ (consume_length_lt (by simp) hq)]
        · split
          · split
            · rename_i q hq
              rw [hwt q _ (consume_length_lt (by simp) hq)]
            · split
              · rename_i q hq
                rw [hwt q _ (consume_length_lt (by simp) hq)]
              · split
                · rename_i q hq
                  rw [hwt q _ (consume_length_lt (by simp) hq)]
                · split
                  · rename_i q hq
                    have hlt := consume_length_lt (by simp) hq
                    rw [hwe q _ hlt]
                    split
                    · rfl
                    · rename_i o q1 fl heq
                      have := write_embedded_go_rest fs n q s o q1 fl heq
                      rw [hwt q1 _ (by omega)]
                  · split
                    · rename_i q hq
                      have hlt := consume_length_lt (by simp) hq
                      rw [hwl q _ hlt]
                      split
                      · rfl
                      · rename_i o q1 fl heq
                        have := write_link_go_rest fs n q s o q1 fl heq
                        rw [hwt q1 _ (by omega)]
                    · split
                      · rfl
                      · rename_i c q hq
                        rw [hwt q _ (skip_backslash_length hq)]
          · split
            · rfl
            · rename_i c q hq
              rw [hwt q _ (skip_backslash_length hq)]
      · split
        · rfl
        · rename_i c q hq
          rw [hwt q _ (skip_backslash_length hq)]
    · intro m p s hm hp
      obtain ⟨m', rfl⟩ : ∃ m', m = m' + 1 := ⟨m - 1, by omega⟩
      have hm' : n ≤ m' := by omega
      rw [write_embedded_go, write_embedded_go]
      split
      · rfl
      · rename_i name p1 hcu
        have hl := (copy_until_length hcu).1
        rw [ihT m' name s hm' (by omega)]
    · intro m p s hm hp
      obtain ⟨m', rfl⟩ : ∃ m', m = m' + 1 := ⟨m - 1, by omega⟩
      have hm' : n ≤ m' := by omega
      rw [write_link_go, write_link_go]
      split
      · rfl
      · rename_i text p1 hcu
        have hl := copy_until_length hcu
        rw [ihT m' text s hm' (by omega)]
        split
        · rename_i p2 hc2
          have hl2 := consume_length hc2
          split
          · rfl
          · rename_i url p3 hcu3
            have hl3 := copy_until_length hcu3
            rw [ihT m' url PRE hm' (by omega)]
        · rfl

theorem write_text_go_eq (fs : Files) (n : Nat) (p : List Char) (s : Nat)
    (h : 2 * p.length + 1 ≤ n) : write_text_go fs n p s = write_text fs p s :=
  (go_stable fs (2 * p.length + 1)).1 n p s h (Nat.le_refl _)

theorem write_embedded_go_eq (fs : Files) (n : Nat) (p : List Char) (s : Nat)
    (h : 2 * p.length + 2 ≤ n) : write_embedded_go fs n p s = write_embedded fs p s :=
  (go_stable fs (2 * p.length + 2)).2.1 n p s h (Nat.le_refl _)

theorem write_link_go_eq (fs : Files) (n : Nat) (p : List Char) (s : Nat)
    (h : 2 * p.length + 2 ≤ n) : write_link_go fs n p s = write_link fs p s :=
  (go_stable fs (2 * p.length + 2)).2.2 n p s h (Nat.le_refl _)

/-- The body of `write_embedded` (odie.c:69-86), free of the budget. -/
theorem write_embedded_eq (fs : Files) (p : List Char) (flags : Nat) :
    write_embedded fs p flags =
      match copy_until 512 p "\n :]*".data with
      | .error e => .error e
      | .ok (name, p1) =>
        match fs name with
        | some bytes =>
          if strstr name ".png".data || strstr name ".jpg".data || strstr name ".gif".data then
            .ok ("<img src=\"data:image;base64, ".data ++ write_b64_fp bytes ++ "\"/>".data,
              p1, flags)
          else
            .ok (write_fp bytes, p1, flags)
        | none =>
          match write_text fs name flags with
          | .error e => .error e
          | .ok (o, fl) => .ok ('@' :: o, p1, fl) := by
  unfold write_embedded
  rw [write_embedded_go]
  split
  · rfl
  · rename_i name p1 hcu
    have hl := (copy_until_length hcu).1
    rw [write_text_go_eq fs _ name flags (by omega)]

/-- The body of `write_link` (odie.c:88-101), free of the budget. -/
theorem write_link_eq (fs : Files) (p : List Char) (flags : Nat) :
    write_link fs p flags =
      match copy_until 512 p "]".data with
      | .error e => .error e
      | .ok (text, p1) =>
        match consume p1 "](".data with
        | some p2 =>
          match copy_until 512 p2 ")".data with
          | .error e => .error e
          | .ok (url, p3) =>
            match write_text fs url PRE with
            | .error e => .error e
            | .ok (ou, _) =>
              match write_text fs text flags with
              | .error e => .error e
              | .ok (ot, _) =>
                .ok ("<a href=\"".data ++ ou ++ "\">".data ++ ot ++ "</a>".data,
                  (consume p3 ")".data).getD p3, flags)
        | none =>
          match write_text fs text flags with
          | .error e => .error e
          | .ok (o, fl) => .ok ('[' :: o, p1, fl) := by
  unfold write_link
  rw [write_link_go]
  split
  · rfl
  · rename_i text p1 hcu
    have hl := copy_until_length hcu
    rw [write_text_go_eq fs _ text flags (by omega)]
    split
    · rename_i p2 hc2
      have hl2 := consume_length hc2
      split
      · rfl
      · rename_i url p3 hcu3
        have hl3 := copy_until_length hcu3
        rw [write_text_go_eq fs _ url PRE (by omega)]
    · rfl

/-- The body of `write_text` (odie.c:112-137), free of the budget. -/
theorem write_text_eq (fs : Files) (p : List Char) (flags : Nat) :
    write_text fs p flags =
      if flags &&& PRE = 0 then
        match consume p [BTK] with
        | some q =>
          emit (edge flags CODE "code".data).1 (write_text fs q (edge flags CODE "code".data).2)
        | none =>
          if flags &&& CODE = 0 then
            match consume p "~~".data with
            | some q =>
              emit (edge flags STRIKE "strike".data).1
                (write_text fs q (edge flags STRIKE "strike".data).2)
            | none =>
              match consume p "*".data with
              | some q =>
                emit (edge flags EM "em".data).1 (write_text fs q (edge flags EM "em".data).2)
              | none =>
                match consume p "_".data with
                | some q =>
                  emit (edge flags STRONG "strong".data).1
                    (write_text fs q (edge flags STRONG "strong".data).2)
                | none =>
                  match consume p "@".data with
                  | some q =>
                    match write_embedded fs q flags with
                    | .error e => .error e
                    | .ok (o, q1, fl) => emit o (write_text fs q1 fl)
                  | none =>
                    match consume p "[".data with
                    | some q =>
                      match write_link fs q flags with
                      | .error e => .error e
                      | .ok (o, q1, fl) => emit o (write_text fs q1 fl)
                    | none =>
                      match skip_backslash p with
                      | [] => .ok ([], flags)
                      | c :: q => emit (put_escaped c) (write_text fs q flags)
          else
            match skip_backslash p with
            | [] => .ok ([], flags)
            | c :: q => emit (put_escaped c) (write_text fs q flags)
      else
        match skip_backslash p with
        | [] => .ok ([], flags)
        | c :: q => emit (put_escaped c) (write_text fs q flags) := by
  have hwt : ∀ q s', q.length < p.length →
      write_text_go fs (2 * p.length) q s' = write_text fs q s' :=
    fun q s' hq => write_text_go_eq fs _ q s' (by omega)
  have hwe : ∀ q s', q.length < p.length →
      write_embedded_go fs (2 * p.length) q s' = write_embedded fs q s' :=
    fun q s' hq => write_embedded_go_eq fs _ q s' (by omega)
  have hwl : ∀ q s', q.length < p.length →
      write_link_go fs (2 * p.length) q s' = write_link fs q s' :=
    fun q s' hq => write_link_go_eq fs _ q s' (by omega)
  conv => lhs; unfold write_text; rw [write_text_go]
  simp only []
  split
  · split
    · rename_i q hq
      rw [hwt q _ (consume_length_lt (by simp) hq)]
    · split
      · split
        · rename_i q hq
          rw [hwt q _ (consume_length_lt (by simp) hq)]
        · split
          · rename_i q hq
            rw [hwt q _ (consume_length_lt (by simp) hq)]
          · split
            · rename_i q hq
              rw [hwt q _ (consume_length_lt (by simp) hq)]
            · split
              · rename_i q hq
                have hlt := consume_length_lt (by simp) hq
                rw [hwe q _ hlt]
                split
                · rfl
                · rename_i o q1 fl heq
                  have := write_embedded_go_rest fs _ q flags o q1 fl heq
                  rw [hwt q1 _ (by omega)]
              · split
                · rename_i q hq
                  have hlt := consume_length_lt (by simp) hq
                  rw [hwl q _ hlt]
                  split
                  · rfl
                  · rename_i o q1 fl heq
                    have := write_link_go_rest fs _ q flags o q1 fl heq
                    rw [hwt q1 _ (by omega)]
                · split
                  · rfl
                  · rename_i c q hq
                    rw [hwt q _ (skip_backslash_length hq)]
      · split
        · rfl
        · rename_i c q hq
          rw [hwt q _ (skip_backslash_length hq)]
  · split
    · rfl
    · rename_i c q hq
      rw [hwt q _ (skip_backslash_length hq)]

/-! ## Rendering at the level of `write_text` -/

theorem write_text_nil (fs : Files) (flags : Nat) : write_text fs [] flags = .ok ([], flags) := by
  rw [write_text_eq]
  simp [consume, skip_backslash]

/-- An inert stretch of text is emitted as its entity mapping, and the scan
goes on behind it in the same state. -/
theorem write_text_inert_append (fs : Files) (flags : Nat) (a r : List Char)
    (h : inert flags a r) :
    write_text fs (a ++ r) flags = emit (escaped a) (write_text fs r flags) := by
  unfold write_text
  have e : 2 * (a ++ r).length + 1 = (a.length + 2 * r.length + 1) + a.length := by
    simp only [List.length_append]; omega
  rw [e, write_text_go_inert fs flags a r _ h, write_text_go_eq fs _ r flags (by omega)]
  rfl

theorem edge_open {flags f : Nat} (tag : List Char) (h : flags &&& f = 0) :
    edge flags f tag = ("<".data ++ tag ++ ">".data, flags ||| f) := by
  simp [edge, h]

theorem edge_close {flags f : Nat} (tag : List Char) (h : flags &&& f ≠ 0) :
    edge flags f tag = ("</".data ++ tag ++ ">".data, and_not flags f) := by
  simp [edge, h]

theorem or_bit_and_other (x : Nat) {i j : Nat} (h : i ≠ j) :
    (x ||| 1 <<< i) &&& 1 <<< j = x &&& 1 <<< j := by
  apply Nat.eq_of_testBit_eq
  intro k
  simp only [Nat.testBit_and, Nat.testBit_or, Nat.one_shiftLeft, Nat.testBit_two_pow]
  by_cases hj : j = k
  · subst hj; simp [h]
  · simp [hj]

theorem or_bit_and_self (x i : Nat) : (x ||| 1 <<< i) &&& 1 <<< i ≠ 0 := by
  rw [bit_and_ne_zero]
  simp [Nat.testBit_or, Nat.one_shiftLeft, Nat.testBit_two_pow]

theorem and_not_or_bit (x i : Nat) (h : x &&& 1 <<< i = 0) :
    and_not (x ||| 1 <<< i) (1 <<< i) = x := by
  have hb := (bit_and_eq_zero x i).mp h
  apply Nat.eq_of_testBit_eq
  intro k
  simp only [testBit_and_not, Nat.testBit_or, Nat.one_shiftLeft, Nat.testBit_two_pow]
  by_cases hk : i = k
  · subst hk; simp [hb]
  · simp [hk]

theorem and_not_bit_and_other (x : Nat) {i j : Nat} (h : i ≠ j) :
    and_not x (1 <<< i) &&& 1 <<< j = x &&& 1 <<< j := by
  apply Nat.eq_of_testBit_eq
  intro k
  simp only [Nat.testBit_and, testBit_and_not, Nat.one_shiftLeft, Nat.testBit_two_pow]
  by_cases hj : j = k
  · subst hj; simp [h]
  · simp [hj]

theorem and_not_bit_and_self (x i : Nat) : and_not x (1 <<< i) &&& 1 <<< i = 0 := by
  rw [bit_and_eq_zero]
  simp [testBit_and_not, Nat.one_shiftLeft, Nat.testBit_two_pow]

/-- The `*` rule of `write_text` (odie.c:119). -/
theorem write_text_star (fs : Files) (flags : Nat) (q : List Char)
    (hp : flags &&& PRE = 0) (hc : flags &&& CODE = 0) :
    write_text fs ('*' :: q) flags
      = emit (edge flags EM "em".data).1 (write_text fs q (edge flags EM "em".data).2) := by
  rw [write_text_eq]
  have h1 : ¬ ('*' : Char) = BTK := by decide
  simp [hp, hc, consume, h1]

/-- C3: `*a*` with markup-free `a`, read with `Pre`, `Code` and `Em` clear,
yields `<em>`, the entity mapping of `a` and `</em>`, and returns the state it
started from. -/
theorem write_text_em_pair (fs : Files) (flags : Nat) (a : List Char)
    (hp : flags &&& PRE = 0) (hc : flags &&& CODE = 0) (he : flags &&& EM = 0)
    (ha : no_markup a) :
    write_text fs ('*' :: a ++ "*".data) flags
      = .ok ("<em>".data ++ escaped a ++ "</em>".data, flags) := by
  have hp' : (flags ||| EM) &&& PRE = 0 := by
    have := or_bit_and_other flags (i := 2) (j := 0) (by decide)
    exact this.trans hp
  have hc' : (flags ||| EM) &&& CODE = 0 := by
    have := or_bit_and_other flags (i := 2) (j := 1) (by decide)
    exact this.trans hc
  have he' : (flags ||| EM) &&& EM ≠ 0 := or_bit_and_self flags 2
  have hback : and_not (flags ||| EM) EM = flags := and_not_or_bit flags 2 he
  rw [List.cons_append, write_text_star fs flags _ hp hc, edge_open _ he]
  simp only []
  rw [write_text_inert_append fs _ a _ (inert_of_no_markup _ a _ ha (by decide)),
    write_text_star fs _ _ hp' hc', edge_close _ he']
  simp only []
  rw [hback, write_text_nil]
  simp [emit]

theorem write_text_em_pair_witness :
    write_text (fun _ => none) "*a*".data 0 = .ok ("<em>a</em>".data, 0) :=
  write_text_em_pair (fun _ => none) 0 "a".data (by decide) (by decide) (by decide) (by decide)

/-! ## Lines -/

theorem consume_append (e q : List Char) : consume (e ++ q) e = some q := by
  induction e with
  | nil => cases q <;> rfl
  | cons x xs ih => simp [consume, ih]

theorem consume_eq_none {e p : List Char} (h : ¬ e <+: p) : consume p e = none := by
  cases hc : consume p e with
  | none => rfl
  | some q => exact absurd ⟨q, (consume_some e p q hc).symm⟩ h

/-- The fence rule of `process_line` (odie.c:141): a line that starts with
three backticks toggles `PRE` and nothing else is read from it. -/
theorem process_line_fence (fs : Files) (r : List Char) (flags : Nat) :
    process_line fs ([BTK, BTK, BTK] ++ r) flags = .ok (edge flags PRE "pre".data) := by
  unfold process_line
  rw [consume_append]

/-- Inside a fence a line goes to `write_text` as it is (odie.c:142). -/
theorem process_line_in_pre (fs : Files) (c : List Char) (flags : Nat)
    (hf : ¬ [BTK, BTK, BTK] <+: c) (hp : flags &&& PRE ≠ 0) :
    process_line fs c flags = write_text fs c flags := by
  unfold process_line
  rw [consume_eq_none hf]
  simp [hp]

/-- C4: a fence line, a content line `c` that does not start with three
backticks and holds no backslash, and a fence line, processed from the empty
state, yield `<pre>`, the entity mapping of `c` with no marker interpreted,
and `</pre>`, and end in the empty state. -/
theorem process_lines_fenced (fs : Files) (c : List Char)
    (hf : ¬ [BTK, BTK, BTK] <+: c) (hb : BSL ∉ c) :
    process_lines fs [[BTK, BTK, BTK], c, [BTK, BTK, BTK]] 0
      = .ok ("<pre>".data ++ escaped c ++ "</pre>".data, 0) := by
  have h1 : process_line fs [BTK, BTK, BTK] 0 = .ok ("<pre>".data, PRE) :=
    process_line_fence fs [] 0
  have hp : PRE &&& PRE ≠ 0 := by decide
  have h2 : process_line fs c PRE = .ok (escaped c, PRE) := by
    rw [process_line_in_pre fs c PRE hf hp]
    exact write_text_inert fs PRE c (inert_of_pre PRE c [] hp hb)
  have h3 : process_line fs [BTK, BTK, BTK] PRE = .ok ("</pre>".data, 0) :=
    process_line_fence fs [] PRE
  simp only [process_lines, h1, h2, h3, emit]
  simp

theorem process_lines_fenced_witness :
    process_lines (fun _ => none) [[BTK, BTK, BTK], "raw *text*".data, [BTK, BTK, BTK]] 0
      = .ok ("<pre>raw *text*</pre>".data, 0) :=
  process_lines_fenced (fun _ => none) "raw *text*".data (by decide) (by decide)

theorem consume_hash_none {t : List Char} (h : '#' ∉ t) (es : List Char) :
    consume t ('#' :: es) = none := by
  cases t with
  | nil => rfl
  | cons c cs =>
    have hc : c ≠ '#' := fun e => h (e ▸ List.mem_cons_self c cs)
    exact consume_cons_ne hc _ _

/-- C5: a line of one, two or three `#`, a space and a markup-free title
without `#`, processed from the empty state, yields the title inside the
heading tag of exactly that level, and returns the empty state. -/
theorem process_line_heading (fs : Files) (t : List Char) (ht : no_markup t) (hh : '#' ∉ t) :
    process_line fs ("# ".data ++ t) 0 = .ok ("<h1>".data ++ escaped t ++ "</h1>".data, 0)
    ∧ process_line fs ("## ".data ++ t) 0 = .ok ("<h2>".data ++ escaped t ++ "</h2>".data, 0)
    ∧ process_line fs ("### ".data ++ t) 0
        = .ok ("<h3>".data ++ escaped t ++ "</h3>".data, 0) := by
  have hw : ∀ s, write_text fs t s = .ok (escaped t, s) := fun s =>
    write_text_plain fs s t ht
  have hn := fun es => consume_hash_none hh es
  have c1 : ¬ ('#' : Char) = BTK := by decide
  refine ⟨?_, ?_, ?_⟩
  · simp +decide [process_line, quote_rule, list_rule, heading_rule, heading_close, consume, skip_space,
      isspace, hn, hw, c1, edge, PRE, QUOTE, LIST, H1, H2, H3, and_not]
  · simp +decide [process_line, quote_rule, list_rule, heading_rule, heading_close, consume, skip_space,
      isspace, hn, hw, c1, edge, PRE, QUOTE, LIST, H1, H2, H3, and_not]
  · simp +decide [process_line, quote_rule, list_rule, heading_rule, heading_close, consume, skip_space,
      isspace, hn, hw, c1, edge, PRE, QUOTE, LIST, H1, H2, H3, and_not]

theorem process_line_heading_witness :
    process_line (fun _ => none) "## Title".data 0 = .ok ("<h2>Title</h2>".data, 0) :=
  (process_line_heading (fun _ => none) "Title".data (by decide) (by decide)).2.1

theorem skip_space_blank {b : List Char} (h : ∀ c ∈ b, isspace c = true) : skip_space b = [] := by
  induction b with
  | nil => rfl
  | cons c cs ih =>
    simp only [skip_space, h c (List.mem_cons_self c cs), if_true]
    exact ih (fun d hd => h d (List.mem_cons_of_mem c hd))

theorem consume_blank {b : List Char} (h : ∀ c ∈ b, isspace c = true) (e : Char)
    (he : isspace e = false) (es : List Char) : consume b (e :: es) = none := by
  cases b with
  | nil => rfl
  | cons c cs =>
    have hc : c ≠ e := by
      intro hce
      have := h c (List.mem_cons_self c cs)
      rw [hce, he] at this
      cases this
    exact consume_cons_ne hc _ _

/-- A list item read with `LIST` clear and every other flag clear. -/
theorem process_line_first_item (fs : Files) (t : List Char) (ht : no_markup t)
    (hh : '#' ∉ t) (hne : t ≠ []) :
    process_line fs ("* ".data ++ t) 0
      = .ok ("<ul>".data ++ ("<li>".data ++ escaped t), LIST) := by
  have hw : ∀ s, write_text fs t s = .ok (escaped t, s) := fun s =>
    write_text_plain fs s t ht
  have hn := fun es => consume_hash_none hh es
  have c1 : ¬ ('*' : Char) = BTK := by decide
  simp +decide [process_line, quote_rule, list_rule, heading_rule, heading_close, consume,
    skip_space, isspace, hn, hw, c1, hne, edge, PRE, QUOTE, LIST, H1, H2, H3, and_not]

/-- A list item read inside an open list. -/
theorem process_line_next_item (fs : Files) (t : List Char) (ht : no_markup t)
    (hh : '#' ∉ t) (hne : t ≠ []) :
    process_line fs ("* ".data ++ t) LIST = .ok ("<li>".data ++ escaped t, LIST) := by
  have hw : ∀ s, write_text fs t s = .ok (escaped t, s) := fun s =>
    write_text_plain fs s t ht
  have hn := fun es => consume_hash_none hh es
  have c1 : ¬ ('*' : Char) = BTK := by decide
  simp +decide [process_line, quote_rule, list_rule, heading_rule, heading_close, consume,
    skip_space, isspace, hn, hw, c1, hne, edge, PRE, QUOTE, LIST, H1, H2, H3, and_not]

/-- A blank line read inside an open list. -/
theorem process_line_blank_in_list (fs : Files) (b : List Char)
    (hb : ∀ c ∈ b, isspace c = true) :
    process_line fs b LIST = .ok ("</ul>".data ++ "<p>".data, 0) := by
  have h1 : consume b [BTK, BTK, BTK] = none := consume_blank hb BTK (by decide) _
  have h2 := skip_space_blank hb
  have h3 := write_text_nil fs
  simp +decide [process_line, quote_rule, list_rule, heading_rule, heading_close, consume,
    h1, h2, h3, edge, PRE, QUOTE, LIST, H1, H2, H3, and_not]

/-- Items after the first, then the blank line. -/
theorem process_lines_items (fs : Files) (b : List Char) (hb : ∀ c ∈ b, isspace c = true) :
    ∀ ts : List (List Char), (∀ t ∈ ts, no_markup t ∧ '#' ∉ t ∧ t ≠ []) →
      process_lines fs (ts.map (fun t => "* ".data ++ t) ++ [b]) LIST
        = .ok ((ts.map (fun t => "<li>".data ++ escaped t)).flatten
            ++ ("</ul>".data ++ "<p>".data), 0) := by
  intro ts
  induction ts with
  | nil =>
    intro _
    simp [process_lines, process_line_blank_in_list fs b hb, emit]
  | cons t ts ih =>
    intro h
    obtain ⟨h1, h2, h3⟩ := h t (List.mem_cons_self t ts)
    have := ih (fun u hu => h u (List.mem_cons_of_mem t hu))
    rw [List.map_cons, List.cons_append, process_lines, process_line_next_item fs t h1 h2 h3]
    simp only []
    rw [this]
    simp [emit]

/-- C6: one or more list items with non-empty markup-free texts without `#`,
followed by a blank line, processed from the empty state, yield one `<ul>`,
then `<li>` and the entity mapping of each text in order, then one `</ul>`
and the paragraph break of the blank line, and end in the empty state. -/
theorem process_lines_list (fs : Files) (t : List Char) (ts : List (List Char)) (b : List Char)
    (h : ∀ u ∈ t :: ts, no_markup u ∧ '#' ∉ u ∧ u ≠ [])
    (hb : ∀ c ∈ b, isspace c = true) :
    process_lines fs (((t :: ts).map (fun u => "* ".data ++ u)) ++ [b]) 0
      = .ok ("<ul>".data ++ ((t :: ts).map (fun u => "<li>".data ++ escaped u)).flatten
          ++ "</ul>".data ++ "<p>".data, 0) := by
  obtain ⟨h1, h2, h3⟩ := h t (List.mem_cons_self t ts)
  have := process_lines_items fs b hb ts (fun u hu => h u (List.mem_cons_of_mem t hu))
  rw [List.map_cons, List.cons_append, process_lines, process_line_first_item fs t h1 h2 h3]
  simp only []
  rw [this]
  simp [emit]

theorem process_lines_list_witness :
    process_lines (fun _ => none) ["* item1".data, "* item2".data, "\n".data] 0
      = .ok ("<ul><li>item1<li>item2</ul><p>".data, 0) :=
  process_lines_list (fun _ => none) "item1".data ["item2".data] "\n".data
    (by decide) (by decide)

/-! ## Tokens -/

/-- A stretch without delimiter or backslash that fits the buffer is copied
whole, and the copy stops at the delimiter or terminator behind it. -/
theorem copy_until_token (chars r : List Char) (hr : ∀ d, r.head? = some d → d ∈ chars) :
    ∀ (t : List Char) (room : Nat), (∀ c ∈ t, c ∉ chars ∧ c ≠ BSL) → t.length < room →
      copy_until room (t ++ r) chars = .ok (t, r) := by
  intro t
  induction t with
  | nil =>
    intro room _ hroom
    have h0 : room ≠ 0 := by simp at hroom; omega
    cases r with
    | nil => simp [copy_until, h0]
    | cons d r' =>
      have hd : d ∈ chars := hr d rfl
      rw [List.nil_append]
      unfold copy_until
      simp [h0, hd]
  | cons c t ih =>
    intro room ht hroom
    obtain ⟨h1, h2⟩ := ht c (List.mem_cons_self c t)
    have h0 : room ≠ 0 := by simp at hroom; omega
    have := ih (room - 1) (fun d hd => ht d (List.mem_cons_of_mem c hd))
      (by simp at hroom; omega)
    rw [List.cons_append]
    unfold copy_until
    simp [h1, h2, h0, this]

/-- A stretch without delimiter or backslash that does not fit the buffer
together with its terminator overflows it. -/
theorem copy_until_overflow (chars r : List Char) :
    ∀ (t : List Char) (room : Nat), (∀ c ∈ t, c ∉ chars ∧ c ≠ BSL) → room ≤ t.length →
      copy_until room (t ++ r) chars = .error .overflow := by
  intro t
  induction t with
  | nil =>
    intro room _ hroom
    have h0 : room = 0 := by simpa using hroom
    subst h0
    cases r with
    | nil => simp [copy_until]
    | cons d r' =>
      rw [List.nil_append]
      unfold copy_until
      split <;> simp
  | cons c t ih =>
    intro room ht hroom
    obtain ⟨h1, h2⟩ := ht c (List.mem_cons_self c t)
    rw [List.cons_append]
    unfold copy_until
    by_cases h0 : room = 0
    · simp [h1, h2, h0]
    · have := ih (room - 1) (fun d hd => ht d (List.mem_cons_of_mem c hd))
        (by simp at hroom; omega)
      simp [h1, h2, h0, this]

/-- The `[` rule of `write_text` (odie.c:122). -/
theorem write_text_bracket (fs : Files) (flags : Nat) (q : List Char)
    (hp : flags &&& PRE = 0) (hc : flags &&& CODE = 0) :
    write_text fs ('[' :: q) flags
      = match write_link fs q flags with
        | .error e => .error e
        | .ok (o, q1, fl) => emit o (write_text fs q1 fl) := by
  rw [write_text_eq]
  have h1 : ¬ ('[' : Char) = BTK := by decide
  simp [hp, hc, consume, h1]

/-- The `@` rule of `write_text` (odie.c:121). -/
theorem write_text_at (fs : Files) (flags : Nat) (q : List Char)
    (hp : flags &&& PRE = 0) (hc : flags &&& CODE = 0) :
    write_text fs ('@' :: q) flags
      = match write_embedded fs q flags with
        | .error e => .error e
        | .ok (o, q1, fl) => emit o (write_text fs q1 fl) := by
  rw [write_text_eq]
  have h1 : ¬ ('@' : Char) = BTK := by decide
  simp [hp, hc, consume, h1]

theorem no_markup_replicate (n : Nat) : no_markup (List.replicate n 'a') := by
  constructor
  · intro c hc
    have := List.eq_of_mem_replicate hc
    subst this
    decide
  · intro hi
    have h1 : '~' ∈ "~~".data := by decide
    have h2 := hi.subset h1
    have := List.eq_of_mem_replicate h2
    cases this

/-- What `write_link` does while its buffers hold: a link whose text is
markup-free without `]`, whose url has no `)` and no backslash, and whose
text and url each have at most 511 characters, read with `Pre` and `Code`
clear, yields the anchor with the entity mapping of the url and of the text,
and returns the state unchanged. -/
theorem write_text_link (fs : Files) (flags : Nat) (t u : List Char)
    (hp : flags &&& PRE = 0) (hc : flags &&& CODE = 0)
    (ht : no_markup t) (hbr : ']' ∉ t) (hpar : ')' ∉ u) (hbs : BSL ∉ u)
    (hlt : t.length ≤ 511) (hlu : u.length ≤ 511) :
    write_text fs ('[' :: t ++ "](".data ++ u ++ ")".data) flags
      = .ok ("<a href=\"".data ++ escaped u ++ "\">".data ++ escaped t ++ "</a>".data,
          flags) := by
  have e : '[' :: t ++ "](".data ++ u ++ ")".data = '[' :: (t ++ ("](".data ++ (u ++ ")".data))) := by
    simp
  have h1 : copy_until 512 (t ++ ("](".data ++ (u ++ ")".data))) "]".data
      = .ok (t, "](".data ++ (u ++ ")".data)) := by
    apply copy_until_token _ _ (by intro d hd; cases hd; decide) t 512 _ (by omega)
    intro c hcm
    refine ⟨?_, (ht.1 c hcm).2.2.2.2.2⟩
    intro hin
    have : c = ']' := by simpa using hin
    exact hbr (this ▸ hcm)
  have h2 : copy_until 512 (u ++ ")".data) ")".data = .ok (u, ")".data) := by
    apply copy_until_token _ _ (by intro d hd; cases hd; decide) u 512 _ (by omega)
    intro c hcm
    refine ⟨?_, fun hb => hbs (hb ▸ hcm)⟩
    intro hin
    have : c = ')' := by simpa using hin
    exact hpar (this ▸ hcm)
  have h3 : write_text fs u PRE = .ok (escaped u, PRE) :=
    write_text_inert fs PRE u (inert_of_pre PRE u [] (by decide) hbs)
  have h4 := write_text_plain fs flags t ht
  rw [e, write_text_bracket fs flags _ hp hc, write_link_eq, h1]
  simp only []
  rw [consume_append]
  simp only []
  rw [h2]
  simp only []
  rw [h3]
  simp only []
  rw [h4]
  simp only []
  rw [show consume ")".data ")".data = some [] from rfl]
  simp only [Option.getD_some]
  rw [write_text_nil]
  simp [emit]

theorem write_text_link_witness :
    write_text (fun _ => none) "[click](http://x)".data 0
      = .ok ("<a href=\"http://x\">click</a>".data, 0) :=
  write_text_link (fun _ => none) 0 "click".data "http://x".data (by decide) (by decide)
    (by decide) (by decide) (by decide) (by decide) (by decide) (by decide)

/-- A link text of 512 or more characters overflows `text[512]`. -/
theorem write_text_bracket_overflow (fs : Files) (flags : Nat) (t r : List Char)
    (hp : flags &&& PRE = 0) (hc : flags &&& CODE = 0)
    (ht : ∀ c ∈ t, c ∉ "]".data ∧ c ≠ BSL) (hl : 512 ≤ t.length) :
    write_text fs ('[' :: (t ++ r)) flags = .error .overflow := by
  rw [write_text_bracket fs flags _ hp hc, write_link_eq, copy_until_overflow _ r t 512 ht hl]

/-- A url of 512 or more characters overflows `url[512]`. -/
theorem write_text_url_overflow (fs : Files) (flags : Nat) (t u r : List Char)
    (hp : flags &&& PRE = 0) (hc : flags &&& CODE = 0)
    (ht : ∀ c ∈ t, c ∉ "]".data ∧ c ≠ BSL) (hlt : t.length < 512)
    (hu : ∀ c ∈ u, c ∉ ")".data ∧ c ≠ BSL) (hl : 512 ≤ u.length) :
    write_text fs ('[' :: (t ++ ("](".data ++ (u ++ r)))) flags = .error .overflow := by
  rw [write_text_bracket fs flags _ hp hc, write_link_eq,
    copy_until_token _ _ (by intro d hd; cases hd; decide) t 512 ht hlt]
  simp only []
  rw [consume_append]
  simp only []
  rw [copy_until_overflow _ r u 512 hu hl]

theorem replicate_a_free (n : Nat) (chars : List Char) (h : 'a' ∉ chars) :
    ∀ c ∈ List.replicate n 'a', c ∉ chars ∧ c ≠ BSL := by
  intro c hc
  have := List.eq_of_mem_replicate hc
  subst this
  exact ⟨h, by decide⟩

/-- C7, the code at the failing input: a markup-free link text of 512
characters without `]`, and likewise a url of 512 characters without `)` or
backslash, meets every condition of the claim, yet `copy_until` writes it
past the end of `text[512]` or `url[512]` (odie.c:89-92) and no anchor is
rendered. -/
theorem write_text_link_long :
    (no_markup (List.replicate 512 'a') ∧ ']' ∉ List.replicate 512 'a'
      ∧ ')' ∉ "x".data ∧ BSL ∉ "x".data ∧ 0 &&& PRE = 0 ∧ 0 &&& CODE = 0
      ∧ write_text (fun _ => none)
          ('[' :: (List.replicate 512 'a' ++ ("](".data ++ ("x".data ++ ")".data)))) 0
          = .error .overflow)
    ∧ (no_markup "x".data ∧ ']' ∉ "x".data
      ∧ ')' ∉ List.replicate 512 'a' ∧ BSL ∉ List.replicate 512 'a'
      ∧ write_text (fun _ => none)
          ('[' :: ("x".data ++ ("](".data ++ (List.replicate 512 'a' ++ ")".data)))) 0
          = .error .overflow) := by
  have hrep : ∀ c : Char, c ≠ 'a' → c ∉ List.replicate 512 'a' :=
    fun c hc hm => hc (List.eq_of_mem_replicate hm)
  refine ⟨⟨no_markup_replicate 512, hrep _ (by decide), by decide, by decide, by decide,
    by decide, ?_⟩, ⟨by decide, by decide, hrep _ (by decide), hrep _ (by decide), ?_⟩⟩
  · exact write_text_bracket_overflow _ 0 _ _ (by decide) (by decide)
      (replicate_a_free 512 _ (by decide)) (by rw [List.length_replicate])
  · exact write_text_url_overflow _ 0 _ _ _ (by decide) (by decide)
      (by decide) (by decide) (replicate_a_free 512 _ (by decide))
      (by rw [List.length_replicate])

theorem write_text_replicate_a (fs : Files) (n flags : Nat) :
    write_text fs (List.replicate n 'a') flags = .ok (List.replicate n 'a', flags) := by
  rw [write_text_plain fs flags _ (no_markup_replicate n), escaped_of_no_special]
  intro c hc
  have := List.eq_of_mem_replicate hc
  subst this
  decide

theorem emit_ok {α : Type} {a o : List Char} {x : Res (List Char × α)} {s : α}
    (h : emit a x = .ok (o, s)) : ∃ o', x = .ok (o', s) ∧ o = a ++ o' := by
  cases x with
  | error e => simp [emit] at h
  | ok v =>
    obtain ⟨o', s'⟩ := v
    simp only [emit, Except.ok.injEq, Prod.mk.injEq] at h
    exact ⟨o', by rw [h.2], h.1.symm⟩

theorem isPrefixOf_append_boundary : ∀ (pat a b : List Char),
    (∀ c, b.head? = some c → c ∉ pat) →
    pat.isPrefixOf (a ++ b) = pat.isPrefixOf a := by
  intro pat
  induction pat with
  | nil => intro a b _; simp [List.isPrefixOf]
  | cons x pat ih =>
    intro a b hb
    cases a with
    | nil =>
      cases b with
      | nil => rfl
      | cons d b' =>
        have hd : ¬ x = d := fun e => hb d rfl (by rw [e]; exact List.mem_cons_self _ _)
        simp [List.isPrefixOf, hd]
    | cons c a' =>
      have := ih a' b (fun c hc hm => hb c hc (List.mem_cons_of_mem _ hm))
      show (x == c && pat.isPrefixOf (a' ++ b)) = (x == c && pat.isPrefixOf a')
      rw [this]

/-- The occurrences of a pattern in `a ++ b` are those in `a` and those in
`b` when no occurrence can straddle the joint: `b` is empty or starts with a
character that the pattern does not hold behind its first one. -/
theorem occurrences_append (pat : List Char) : ∀ (a b : List Char),
    (∀ c, b.head? = some c → c ∉ pat.tail) →
    occurrences pat (a ++ b) = occurrences pat a + occurrences pat b := by
  intro a
  induction a with
  | nil => intro b _; simp [occurrences]
  | cons c a' ih =>
    intro b hb
    have e : pat.isPrefixOf (c :: (a' ++ b)) = pat.isPrefixOf (c :: a') := by
      cases pat with
      | nil => rfl
      | cons x pat' =>
        have := isPrefixOf_append_boundary pat' a' b hb
        show (x == c && pat'.isPrefixOf (a' ++ b)) = (x == c && pat'.isPrefixOf a')
        rw [this]
    rw [List.cons_append, occurrences, occurrences, ih b hb, e, Nat.add_assoc]

/-- What `write_text` makes of a text that starts with a delimiter of
`write_embedded` starts with that delimiter or with the `<` of an `em` tag. -/
theorem write_text_delimiter_start (fs : Files) (q : List Char) (s : Nat) (o : List Char)
    (s' : Nat) (hq : ∀ c, q.head? = some c → c ∈ "\n :]*".data)
    (h : write_text fs q s = .ok (o, s')) :
    ∀ c, o.head? = some c → c ∈ "\n :]*<".data := by
  cases q with
  | nil =>
    rw [write_text_nil] at h
    cases h
    intro c hc
    cases hc
  | cons c q' =>
    have hc := hq c rfl
    have plain : inert s [c] q' → escaped [c] = [c] → c ∈ "\n :]*<".data →
        ∀ d, o.head? = some d → d ∈ "\n :]*<".data := by
      intro hi he hn
      have := write_text_inert_append fs s [c] q' hi
      rw [List.singleton_append] at this
      rw [this, he] at h
      obtain ⟨o', _, rfl⟩ := emit_ok h
      intro d hd
      cases hd
      exact hn
    have hb : ¬ ('*' : Char) = BSL := by decide
    have hk : ¬ ('*' : Char) = BTK := by decide
    simp only [String.data, List.mem_cons, List.mem_singleton, List.not_mem_nil, or_false] at hc
    rcases hc with hc | hc | hc | hc | hc
    · subst hc
      exact plain (by simp +decide [inert]) (by decide) (by decide)
    · subst hc
      exact plain (by simp +decide [inert]) (by decide) (by decide)
    · subst hc
      exact plain (by simp +decide [inert]) (by decide) (by decide)
    · subst hc
      exact plain (by simp +decide [inert]) (by decide) (by decide)
    · subst hc
      by_cases hp : s &&& PRE = 0
      · by_cases hcd : s &&& CODE = 0
        · rw [write_text_star fs s q' hp hcd] at h
          obtain ⟨o', _, rfl⟩ := emit_ok h
          intro d hd
          unfold edge at hd
          split at hd <;> cases hd <;> decide
        · exact plain (by simp +decide [inert, hp, hcd, hb, hk]) (by decide) (by decide)
      · exact plain (by simp +decide [inert, hp, hb]) (by decide) (by decide)

/-- What `write_text` makes of a text that starts with `]` starts with `]`. -/
theorem write_text_rbracket_start (fs : Files) (r : List Char) (s : Nat) (o : List Char)
    (s' : Nat) (hr : ∀ d, r.head? = some d → d = ']')
    (h : write_text fs r s = .ok (o, s')) : ∀ c, o.head? = some c → c = ']' := by
  cases r with
  | nil =>
    rw [write_text_nil] at h
    cases h
    intro c hc
    cases hc
  | cons d r' =>
    have hd := hr d rfl
    subst hd
    have := write_text_inert_append fs s [']'] r' (by simp +decide [inert])
    rw [List.singleton_append] at this
    rw [this] at h
    obtain ⟨o', _, rfl⟩ := emit_ok h
    intro c hc
    cases hc
    rfl

/-- C8 (amended): `[` followed by a text without `]` or backslash, and then
by nothing or by a `]` that does not start `](`, read with `Pre` and `Code`
clear, builds no anchor from this `[`: it yields a literal `[`, then what
`write_text` yields for the text, then what `write_text` yields for the
remainder in the state returned for the text, and the state is the one
returned for the remainder; for a markup-free text the output is `[`, the
entity mapping of the text and the output for the remainder; and the anchor
tags of the output are those of the output for the text and those of the
output for the remainder. Texts of 512 or more characters, which overrun
`text[512]`, are left out. -/
theorem write_text_broken_link (fs : Files) (flags : Nat) (t r : List Char)
    (hp : flags &&& PRE = 0) (hc : flags &&& CODE = 0)
    (hbr : ']' ∉ t) (hbs : BSL ∉ t)
    (hr : ∀ d, r.head? = some d → d = ']') (hr2 : ¬ "](".data <+: r)
    (hl : t.length ≤ 511) :
    write_text fs ('[' :: t ++ r) flags
        = (match write_text fs t flags with
          | .error e => .error e
          | .ok (o1, s1) => emit ('[' :: o1) (write_text fs r s1))
    ∧ (no_markup t →
        write_text fs ('[' :: t ++ r) flags
          = emit ('[' :: escaped t) (write_text fs r flags))
    ∧ (∀ o s', write_text fs ('[' :: t ++ r) flags = .ok (o, s') →
        ∃ o1 s1 o2, write_text fs t flags = .ok (o1, s1)
          ∧ write_text fs r s1 = .ok (o2, s') ∧ o = '[' :: o1 ++ o2
          ∧ occurrences "<a ".data o
              = occurrences "<a ".data o1 + occurrences "<a ".data o2) := by
  suffices main : write_text fs ('[' :: t ++ r) flags
      = (match write_text fs t flags with
        | .error e => .error e
        | .ok (o1, s1) => emit ('[' :: o1) (write_text fs r s1)) by
    refine ⟨main, fun hm => ?_, fun o s' ho => ?_⟩
    · rw [main, write_text_plain fs flags t hm]
    · rw [main] at ho
      split at ho
      · cases ho
      · rename_i o1 s1 hw
        obtain ⟨o2, hw2, rfl⟩ := emit_ok ho
        refine ⟨o1, s1, o2, hw, hw2, rfl, ?_⟩
        have hst := write_text_rbracket_start fs r s1 o2 s' hr hw2
        rw [List.cons_append, occurrences, occurrences_append "<a ".data o1 o2
          (fun c hc => by rw [hst c hc]; decide)]
        simp [List.isPrefixOf]
  have h1 : copy_until 512 (t ++ r) "]".data = .ok (t, r) := by
    apply copy_until_token _ _ (by intro d hd; rw [hr d hd]; decide) t 512 _ (by omega)
    intro c hcm
    refine ⟨?_, fun hb => hbs (hb ▸ hcm)⟩
    intro hin
    have : c = ']' := by simpa using hin
    exact hbr (this ▸ hcm)
  rw [List.cons_append, write_text_bracket fs flags _ hp hc, write_link_eq, h1]
  simp only []
  rw [consume_eq_none hr2]
  simp only []
  cases write_text fs t flags with
  | error e => rfl
  | ok v => rfl

theorem write_text_broken_link_witness :
    write_text (fun _ => none) "[broken".data 0 = .ok ("[broken".data, 0) :=
  (write_text_broken_link (fun _ => none) 0 "broken".data [] (by decide) (by decide)
    (by decide) (by decide) (by decide) (by decide) (by decide)).1.trans (by decide)

/-- C8 as stated fails: the text `t` and the remainder `] [x](y)` meet every
condition of the claim, and the output is `[`, the output for the text and
the output for the remainder as the claim says, yet it holds an anchor tag:
the remainder is rendered like any text, its link included. -/
theorem write_text_broken_link_anchor :
    ']' ∉ "t".data ∧ BSL ∉ "t".data ∧ 0 &&& PRE = 0 ∧ 0 &&& CODE = 0
    ∧ (∀ d, "] [x](y)".data.head? = some d → d = ']') ∧ ¬ "](".data <+: "] [x](y)".data
    ∧ write_text (fun _ => none) ('[' :: "t".data ++ "] [x](y)".data) 0
        = .ok ("[t] <a href=\"y\">x</a>".data, 0)
    ∧ occurrences "<a ".data "[t] <a href=\"y\">x</a>".data = 1 := by
  decide

/-- The overrun of `text[512]` in a link that is never closed: `write_text`
renders a text of 512 characters on its own, yet `[` followed by the same
text is written past the end of the buffer of `write_link`. -/
theorem write_text_broken_link_long :
    ']' ∉ List.replicate 512 'a' ∧ BSL ∉ List.replicate 512 'a'
    ∧ 0 &&& PRE = 0 ∧ 0 &&& CODE = 0
    ∧ write_text (fun _ => none) (List.replicate 512 'a') 0
        = .ok (List.replicate 512 'a', 0)
    ∧ write_text (fun _ => none) [] 0 = .ok ([], 0)
    ∧ write_text (fun _ => none) ('[' :: (List.replicate 512 'a' ++ [])) 0
        = .error .overflow := by
  have hrep : ∀ c : Char, c ≠ 'a' → c ∉ List.replicate 512 'a' :=
    fun c hc hm => hc (List.eq_of_mem_replicate hm)
  refine ⟨hrep _ (by decide), hrep _ (by decide), by decide, by decide,
    write_text_replicate_a _ 512 0, write_text_nil _ 0, ?_⟩
  exact write_text_bracket_overflow _ 0 _ _ (by decide) (by decide)
    (replicate_a_free 512 _ (by decide)) (by rw [List.length_replicate])

/-- An embed name of 512 or more characters overflows `name[512]`. -/
theorem write_text_at_overflow (fs : Files) (flags : Nat) (n r : List Char)
    (hp : flags &&& PRE = 0) (hc : flags &&& CODE = 0)
    (hn : ∀ c ∈ n, c ∉ "\n :]*".data ∧ c ≠ BSL) (hl : 512 ≤ n.length) :
    write_text fs ('@' :: (n ++ r)) flags = .error .overflow := by
  rw [write_text_at fs flags _ hp hc, write_embedded_eq, copy_until_overflow _ r n 512 hn hl]

/-- C9 (amended): when the file named `n` cannot be opened, `@` followed by a
token `n` without newline, space, `:`, `]`, `*` or backslash, and then by
nothing or by one of the delimiters newline, space, `:`, `]`, `*`, read with
`Pre` and `Code` clear, yields a literal `@`, then what `write_text` yields
for `n`, then what `write_text` yields for the remainder in the state
returned for `n`: the failed embed itself adds no img tag and no file
content, the img tags of the output being those of the output for `n` and
those of the output for the remainder; and for a markup-free `n` the output
is `@`, the entity mapping of `n` and the output for the remainder. Tokens of
512 or more characters, which overrun `name[512]`, are left out. -/
theorem write_text_missing_embed (fs : Files) (flags : Nat) (n r : List Char)
    (hp : flags &&& PRE = 0) (hc : flags &&& CODE = 0)
    (hn : ∀ c ∈ n, c ∉ "\n :]*".data ∧ c ≠ BSL)
    (hr : ∀ d, r.head? = some d → d ∈ "\n :]*".data)
    (hfs : fs n = none) (hl : n.length ≤ 511) :
    write_text fs ('@' :: n ++ r) flags
        = (match write_text fs n flags with
          | .error e => .error e
          | .ok (o1, s1) => emit ('@' :: o1) (write_text fs r s1))
    ∧ (no_markup n →
        write_text fs ('@' :: n ++ r) flags
          = emit ('@' :: escaped n) (write_text fs r flags))
    ∧ (∀ o s', write_text fs ('@' :: n ++ r) flags = .ok (o, s') →
        ∃ o1 s1 o2, write_text fs n flags = .ok (o1, s1)
          ∧ write_text fs r s1 = .ok (o2, s') ∧ o = '@' :: o1 ++ o2
          ∧ occurrences "<img".data o
              = occurrences "<img".data o1 + occurrences "<img".data o2) := by
  suffices main : write_text fs ('@' :: n ++ r) flags
      = (match write_text fs n flags with
        | .error e => .error e
        | .ok (o1, s1) => emit ('@' :: o1) (write_text fs r s1)) by
    refine ⟨main, fun hm => ?_, fun o s' ho => ?_⟩
    · rw [main, write_text_plain fs flags n hm]
    · rw [main] at ho
      split at ho
      · cases ho
      · rename_i o1 s1 hw
        obtain ⟨o2, hw2, rfl⟩ := emit_ok ho
        refine ⟨o1, s1, o2, hw, hw2, rfl, ?_⟩
        have hst := write_text_delimiter_start fs r s1 o2 s' hr hw2
        have hb : ∀ c, o2.head? = some c → c ∉ "<img".data.tail := by
          intro c hc hm
          have h1 := hst c hc
          simp only [String.data, List.mem_cons, List.mem_singleton, List.not_mem_nil,
            or_false, List.tail_cons] at h1 hm
          rcases h1 with h1 | h1 | h1 | h1 | h1 | h1 <;> subst h1 <;> simp +decide at hm
        rw [List.cons_append, occurrences, occurrences_append "<img".data o1 o2 hb]
        simp [List.isPrefixOf]
  have h1 : copy_until 512 (n ++ r) "\n :]*".data = .ok (n, r) :=
    copy_until_token _ _ hr n 512 hn (by omega)
  rw [List.cons_append, write_text_at fs flags _ hp hc, write_embedded_eq, h1]
  simp only []
  rw [hfs]
  simp only []
  cases write_text fs n flags with
  | error e => rfl
  | ok v => rfl

theorem write_text_missing_embed_witness :
    write_text (fun _ => none) "@missing.txt".data 0 = .ok ("@missing.txt".data, 0) :=
  (write_text_missing_embed (fun _ => none) 0 "missing.txt".data [] (by decide) (by decide)
    (by decide) (by decide) rfl (by decide)).1.trans (by decide)

/-- C9 as stated fails: the file named `a@b.png` cannot be opened, the token
`a@b.png` and an empty remainder meet every condition of the claim, and the
output is `@` and the output for the token as the claim says, yet it holds an
img tag and the base64 of a file: the token is rendered like any text, and
its own `@b.png` names a file that opens. -/
theorem write_text_missing_embed_img :
    (∀ c ∈ "a@b.png".data, c ∉ "\n :]*".data ∧ c ≠ BSL)
    ∧ 0 &&& PRE = 0 ∧ 0 &&& CODE = 0
    ∧ (fun name => if name = "b.png".data then some [1, 2, 3] else none : Files)
        "a@b.png".data = none
    ∧ write_text (fun name => if name = "b.png".data then some [1, 2, 3] else none)
        ('@' :: "a@b.png".data ++ []) 0
        = .ok ("@a<img src=\"data:image;base64, AQID\"/>".data, 0)
    ∧ occurrences "<img".data "@a<img src=\"data:image;base64, AQID\"/>".data = 1
    ∧ write_b64_fp [1, 2, 3] = "AQID".data := by
  decide

/-- The overrun of `name[512]`: `write_text` renders a token of 512
characters on its own, yet `@` followed by the same token is written past the
end of the buffer of `write_embedded`. -/
theorem write_text_missing_embed_long :
    (∀ c ∈ List.replicate 512 'a', c ∉ "\n :]*".data ∧ c ≠ BSL)
    ∧ 0 &&& PRE = 0 ∧ 0 &&& CODE = 0
    ∧ write_text (fun _ => none) (List.replicate 512 'a') 0
        = .ok (List.replicate 512 'a', 0)
    ∧ write_text (fun _ => none) [] 0 = .ok ([], 0)
    ∧ write_text (fun _ => none) ('@' :: (List.replicate 512 'a' ++ [])) 0
        = .error .overflow :=
  ⟨replicate_a_free 512 _ (by decide), by decide, by decide,
    write_text_replicate_a _ 512 0, write_text_nil _ 0,
    write_text_at_overflow _ 0 _ _ (by decide) (by decide)
      (replicate_a_free 512 _ (by decide)) (by rw [List.length_replicate])⟩

/-! ## Base64 -/

theorem b64_word_eq (b0 b1 b2 : Nat) (h0 : b0 < 256) (h1 : b1 < 256) (h2 : b2 < 256) :
    b64_word b0 b1 b2 = b0 * 65536 + b1 * 256 + b2 := by
  unfold b64_word
  rw [Nat.mod_eq_of_lt h0, Nat.mod_eq_of_lt h1, Nat.mod_eq_of_lt h2,
    Nat.shiftLeft_eq, Nat.shiftLeft_eq]
  have e1 : b0 * 2 ^ 16 ||| b1 * 2 ^ 8 = b0 * 2 ^ 16 + b1 * 2 ^ 8 := by
    have := Nat.mul_add_lt_is_or (i := 16) (b := b1 * 2 ^ 8) (by omega) b0
    rw [Nat.mul_comm (2 ^ 16) b0] at this
    exact this.symm
  rw [e1]
  have e2 : b0 * 2 ^ 16 + b1 * 2 ^ 8 = 2 ^ 8 * (b0 * 2 ^ 8 + b1) := by ring
  rw [e2, ← Nat.mul_add_lt_is_or (i := 8) (b := b2) (by omega)]
  ring

theorem b64_pick_eq (x s : Nat) : b64_pick x s = b64_table.getD (x / 2 ^ s % 64) 'A' := by
  unfold b64_pick
  rw [Nat.shiftRight_eq_div_pow]
  have := Nat.and_pow_two_sub_one_eq_mod (x / 2 ^ s) 6
  rw [show (0x3f : Nat) = 2 ^ 6 - 1 from rfl, this]

theorem b64_table_eq : ∀ v, v < 64 → b64_table.getD v 'A' = rfc4648_char v := by
  decide

theorem sextets_three (b0 b1 b2 : Nat) (h0 : b0 < 256) (h1 : b1 < 256) (h2 : b2 < 256)
    (rest : List Nat) :
    sextets (byte_bits b0 ++ (byte_bits b1 ++ (byte_bits b2 ++ rest)))
      = b0 / 4 :: (b0 % 4 * 16 + b1 / 16) :: (b1 % 16 * 4 + b2 / 64) :: b2 % 64
          :: sextets rest := by
  simp only [byte_bits, sextets, List.cons_append, List.nil_append]
  congr 1
  · omega
  congr 1
  · omega
  congr 1
  · omega
  congr 1
  omega

theorem sextets_two (b0 b1 : Nat) (h0 : b0 < 256) (h1 : b1 < 256) :
    sextets (byte_bits b0 ++ byte_bits b1)
      = [b0 / 4, b0 % 4 * 16 + b1 / 16, b1 % 16 * 4] := by
  simp only [byte_bits, sextets, List.cons_append, List.nil_append]
  congr 1
  · omega
  congr 1
  · omega
  congr 1
  omega

theorem sextets_one (b0 : Nat) (h0 : b0 < 256) :
    sextets (byte_bits b0) = [b0 / 4, b0 % 4 * 16] := by
  simp only [byte_bits, sextets]
  congr 1
  · omega
  congr 1
  omega

theorem b64_group (b0 b1 b2 : Nat) (h0 : b0 < 256) (h1 : b1 < 256) (h2 : b2 < 256) :
    b64_pick (b64_word b0 b1 b2) 18 = rfc4648_char (b0 / 4)
    ∧ b64_pick (b64_word b0 b1 b2) 12 = rfc4648_char (b0 % 4 * 16 + b1 / 16)
    ∧ b64_pick (b64_word b0 b1 b2) 6 = rfc4648_char (b1 % 16 * 4 + b2 / 64)
    ∧ b64_pick (b64_word b0 b1 b2) 0 = rfc4648_char (b2 % 64) := by
  simp only [b64_pick_eq, b64_word_eq b0 b1 b2 h0 h1 h2]
  have e18 : (b0 * 65536 + b1 * 256 + b2) / 2 ^ 18 % 64 = b0 / 4 := by omega
  have e12 : (b0 * 65536 + b1 * 256 + b2) / 2 ^ 12 % 64 = b0 % 4 * 16 + b1 / 16 := by omega
  have e6 : (b0 * 65536 + b1 * 256 + b2) / 2 ^ 6 % 64 = b1 % 16 * 4 + b2 / 64 := by omega
  have e0 : (b0 * 65536 + b1 * 256 + b2) / 2 ^ 0 % 64 = b2 % 64 := by omega
  rw [e18, e12, e6, e0]
  exact ⟨b64_table_eq _ (by omega), b64_table_eq _ (by omega), b64_table_eq _ (by omega),
    b64_table_eq _ (by omega)⟩

theorem b64_pick_mem (x s : Nat) : b64_pick x s ∈ b64_table := by
  rw [b64_pick_eq]
  have h : ∀ v, v < 64 → b64_table.getD v 'A' ∈ b64_table := by decide
  exact h _ (Nat.mod_lt _ (by decide))

theorem rfc4648_encode_three (b0 b1 b2 : Nat) (h0 : b0 < 256) (h1 : b1 < 256) (h2 : b2 < 256)
    (rest : List Nat) :
    rfc4648_encode (b0 :: b1 :: b2 :: rest)
      = [rfc4648_char (b0 / 4), rfc4648_char (b0 % 4 * 16 + b1 / 16),
          rfc4648_char (b1 % 16 * 4 + b2 / 64), rfc4648_char (b2 % 64)]
        ++ rfc4648_encode rest := by
  unfold rfc4648_encode
  simp only [List.map_cons, List.flatten_cons]
  rw [sextets_three b0 b1 b2 h0 h1 h2]
  simp only [List.map_cons, List.length_cons, List.cons_append, List.nil_append]
  have e : ∀ n : Nat, (n + 1 + 1 + 1 + 1) % 4 = n % 4 := fun n => by omega
  rw [e]

/-- C10: `write_b64_fp` emits the RFC 4648 base64 encoding of the bytes: the
reference encoding character for character, `4 * ceil(n / 3)` characters in
all, alphabet characters followed by two `=` when `n mod 3 = 1`, one `=` when
`n mod 3 = 2` and none when `n mod 3 = 0`, and `=` is not in the alphabet. -/
theorem write_b64_fp_rfc4648 (bs : List Nat) (h : ∀ b ∈ bs, b < 256) :
    write_b64_fp bs = rfc4648_encode bs
    ∧ (write_b64_fp bs).length = 4 * ((bs.length + 2) / 3)
    ∧ (∃ body, write_b64_fp bs = body ++ List.replicate ((3 - bs.length % 3) % 3) '='
        ∧ ∀ c ∈ body, c ∈ b64_table)
    ∧ '=' ∉ b64_table := by
  refine ⟨?_, ?_, ?_, by decide⟩
  · induction bs using write_b64_fp.induct with
    | case1 => rfl
    | case2 b0 =>
      have h0 : b0 < 256 := h b0 (by simp)
      obtain ⟨g1, g2, -, -⟩ := b64_group b0 0 0 h0 (by decide) (by decide)
      simp only [write_b64_fp, g1, g2, rfc4648_encode, List.map_cons, List.map_nil,
        List.flatten_cons, List.flatten_nil, List.append_nil, sextets_one b0 h0]
      simp
    | case3 b0 b1 =>
      have h0 : b0 < 256 := h b0 (by simp)
      have h1 : b1 < 256 := h b1 (by simp)
      obtain ⟨g1, g2, g3, -⟩ := b64_group b0 b1 0 h0 h1 (by decide)
      simp only [write_b64_fp, g1, g2, g3, rfc4648_encode, List.map_cons, List.map_nil,
        List.flatten_cons, List.flatten_nil, List.append_nil, sextets_two b0 b1 h0 h1]
      simp
    | case4 b0 b1 b2 rest ih =>
      have h0 : b0 < 256 := h b0 (by simp)
      have h1 : b1 < 256 := h b1 (by simp)
      have h2 : b2 < 256 := h b2 (by simp)
      obtain ⟨g1, g2, g3, g4⟩ := b64_group b0 b1 b2 h0 h1 h2
      rw [rfc4648_encode_three b0 b1 b2 h0 h1 h2, write_b64_fp]
      rw [g1, g2, g3, g4, ih (fun b hb => h b (by simp [hb]))]
  · clear h
    induction bs using write_b64_fp.induct with
    | case1 => rfl
    | case2 b0 => simp [write_b64_fp]
    | case3 b0 b1 => simp [write_b64_fp]
    | case4 b0 b1 b2 rest ih =>
      rw [write_b64_fp]
      simp only [List.length_append, List.length_cons, List.length_nil, ih]
      omega
  · clear h
    induction bs using write_b64_fp.induct with
    | case1 => exact ⟨[], rfl, by simp⟩
    | case2 b0 =>
      refine ⟨[b64_pick (b64_word b0 0 0) 18, b64_pick (b64_word b0 0 0) 12], rfl, ?_⟩
      intro c hc
      simp only [List.mem_cons, List.mem_singleton, List.not_mem_nil, or_false] at hc
      rcases hc with rfl | rfl <;> exact b64_pick_mem _ _
    | case3 b0 b1 =>
      refine ⟨[b64_pick (b64_word b0 b1 0) 18, b64_pick (b64_word b0 b1 0) 12,
        b64_pick (b64_word b0 b1 0) 6], rfl, ?_⟩
      intro c hc
      simp only [List.mem_cons, List.mem_singleton, List.not_mem_nil, or_false] at hc
      rcases hc with rfl | rfl | rfl <;> exact b64_pick_mem _ _
    | case4 b0 b1 b2 rest ih =>
      obtain ⟨body, hb, hm⟩ := ih
      refine ⟨[b64_pick (b64_word b0 b1 b2) 18, b64_pick (b64_word b0 b1 b2) 12,
        b64_pick (b64_word b0 b1 b2) 6, b64_pick (b64_word b0 b1 b2) 0] ++ body, ?_, ?_⟩
      · rw [write_b64_fp]
        rw [hb, List.append_assoc]
        have e : (b0 :: b1 :: b2 :: rest).length % 3 = rest.length % 3 := by
          simp only [List.length_cons]; omega
        rw [e]
      · intro c hc
        rw [List.mem_append] at hc
        rcases hc with hc | hc
        · simp only [List.mem_cons, List.mem_singleton, List.not_mem_nil, or_false] at hc
          rcases hc with rfl | rfl | rfl | rfl <;> exact b64_pick_mem _ _
        · exact hm c hc

theorem write_b64_fp_rfc4648_witness :
    write_b64_fp [77] = "TQ==".data
    ∧ write_b64_fp [77, 97] = "TWE=".data
    ∧ write_b64_fp [77, 97, 110] = "TWFu".data :=
  ⟨(write_b64_fp_rfc4648 [77] (by decide)).1.trans (by decide),
    (write_b64_fp_rfc4648 [77, 97] (by decide)).1.trans (by decide),
    (write_b64_fp_rfc4648 [77, 97, 110] (by decide)).1.trans (by decide)⟩

/-! ## The budget of the wrappers always suffices -/

theorem emit_ne_fuel {α : Type} (o : List Char) {x : Res (List Char × α)}
    (h : x ≠ .error .fuel) : emit o x ≠ .error .fuel := by
  cases x with
  | error e => simpa [emit] using h
  | ok v => cases v; simp [emit]

theorem copy_until_ne_fuel (chars : List Char) :
    ∀ (k : Nat) (p : List Char) (room : Nat), p.length ≤ k →
      copy_until room p chars ≠ .error .fuel := by
  intro k
  induction k with
  | zero =>
    intro p room hk
    have hp : p = [] := List.length_eq_zero.mp (by omega)
    subst hp
    unfold copy_until
    split <;> simp
  | succ k ih =>
    intro p room hk
    cases p with
    | nil =>
      unfold copy_until
      split <;> simp
    | cons c cs =>
      unfold copy_until
      split
      · split <;> simp
      · split
        · split
          · simp
          · split
            · split <;> simp
            · rename_i d ds
              split
              · simp
              · have := ih ds (room - 2) (by simp at hk; omega)
                split
                · simp
                · rename_i e he
                  intro h
                  cases h
                  exact this he
        · split
          · simp
          · have := ih cs (room - 1) (by simp at hk; omega)
            split
            · simp
            · rename_i e he
              intro h
              cases h
              exact this he

theorem write_embedded_ne_fuel (fs : Files) (p : List Char) (s : Nat)
    (hT : ∀ q s', q.length ≤ p.length → write_text fs q s' ≠ .error .fuel) :
    write_embedded fs p s ≠ .error .fuel := by
  rw [write_embedded_eq]
  split
  · rename_i e he
    intro h
    cases h
    exact copy_until_ne_fuel _ _ p 512 (Nat.le_refl _) he
  · rename_i name p1 hcu
    have hl := (copy_until_length hcu).1
    split
    · split <;> simp
    · split
      · rename_i e he
        intro h
        cases h
        exact hT name s hl he
      · simp

theorem write_link_ne_fuel (fs : Files) (p : List Char) (s : Nat)
    (hT : ∀ q s', q.length ≤ p.length → write_text fs q s' ≠ .error .fuel) :
    write_link fs p s ≠ .error .fuel := by
  rw [write_link_eq]
  split
  · rename_i e he
    intro h
    cases h
    exact copy_until_ne_fuel _ _ p 512 (Nat.le_refl _) he
  · rename_i text p1 hcu
    have hl := copy_until_length hcu
    split
    · rename_i p2 hc2
      have hl2 := consume_length hc2
      split
      · rename_i e he
        intro h
        cases h
        exact copy_until_ne_fuel _ _ p2 512 (Nat.le_refl _) he
      · rename_i url p3 hcu3
        have hl3 := copy_until_length hcu3
        split
        · rename_i e he
          intro h
          cases h
          exact hT url PRE (by omega) he
        · split
          · rename_i e he
            intro h
            cases h
            exact hT text s (by omega) he
          · simp
    · split
      · rename_i e he
        intro h
        cases h
        exact hT text s (by omega) he
      · simp

/-- The budget `write_text` gives itself is never exhausted: a fault of
`write_text` is always undefined behaviour of the C program. -/
theorem write_text_ne_fuel (fs : Files) :
    ∀ (k : Nat) (p : List Char) (s : Nat), p.length ≤ k →
      write_text fs p s ≠ .error .fuel := by
  intro k
  induction k with
  | zero =>
    intro p s hk
    have hp : p = [] := List.length_eq_zero.mp (by omega)
    subst hp
    rw [write_text_nil]
    simp
  | succ k ih =>
    intro p s hk
    have hwt : ∀ q s', q.length < p.length → write_text fs q s' ≠ .error .fuel :=
      fun q s' hq => ih q s' (by omega)
    rw [write_text_eq]
    split
    · split
      · rename_i q hq
        exact emit_ne_fuel _ (hwt q _ (consume_length_lt (by simp) hq))
      · split
        · split
          · rename_i q hq
            exact emit_ne_fuel _ (hwt q _ (consume_length_lt (by simp) hq))
          · split
            · rename_i q hq
              exact emit_ne_fuel _ (hwt q _ (consume_length_lt (by simp) hq))
            · split
              · rename_i q hq
                exact emit_ne_fuel _ (hwt q _ (consume_length_lt (by simp) hq))
              · split
                · rename_i q hq
                  have hlt := consume_length_lt (by simp) hq
                  split
                  · rename_i e he
                    intro h
                    cases h
                    exact write_embedded_ne_fuel fs q s
                      (fun q' s' hq' => hwt q' s' (by omega)) he
                  · rename_i o q1 fl heq
                    have := write_embedded_go_rest fs _ q s o q1 fl heq
                    exact emit_ne_fuel _ (hwt q1 _ (by omega))
                · split
                  · rename_i q hq
                    have hlt := consume_length_lt (by simp) hq
                    split
                    · rename_i e he
                      intro h
                      cases h
                      exact write_link_ne_fuel fs q s
                        (fun q' s' hq' => hwt q' s' (by omega)) he
                    · rename_i o q1 fl heq
                      have := write_link_go_rest fs _ q s o q1 fl heq
                      exact emit_ne_fuel _ (hwt q1 _ (by omega))
                  · split
                    · simp
                    · rename_i c q hq
                      exact emit_ne_fuel _ (hwt q _ (skip_backslash_length hq))
        · split
          · simp
          · rename_i c q hq
            exact emit_ne_fuel _ (hwt q _ (skip_backslash_length hq))
    · split
      · simp
      · rename_i c q hq
        exact emit_ne_fuel _ (hwt q _ (skip_backslash_length hq))

/-- Whatever the text and the state, `write_text` returns a result or stops
on undefined behaviour of the C program; the model's budget plays no part. -/
theorem write_text_budget (fs : Files) (p : List Char) (s : Nat) :
    write_text fs p s ≠ .error .fuel :=
  write_text_ne_fuel fs p.length p s (Nat.le_refl _)

/-! ## Backslash, `Pre` and `Code` -/

/-- C11: in every state `write_text` on a backslash, a character `c` and a
text `r` emits the entity mapping of `c`, then what it emits for `r` in the
same state, and returns the state it returns for `r`; the backslash is not
emitted and `c` is not read as a marker. -/
theorem write_text_backslash (fs : Files) (s : Nat) (c : Char) (r : List Char) :
    write_text fs (BSL :: c :: r) s = emit (entity c) (write_text fs r s) := by
  rw [write_text_eq, ← put_escaped_eq_entity]
  have h1 : ¬ BSL = BTK := by decide
  have h2 : ¬ BSL = '~' := by decide
  have h3 : ¬ BSL = '*' := by decide
  have h4 : ¬ BSL = '_' := by decide
  have h5 : ¬ BSL = '@' := by decide
  have h6 : ¬ BSL = '[' := by decide
  by_cases hp : s &&& PRE = 0
  · by_cases hc : s &&& CODE = 0
    · simp [hp, hc, consume, skip_backslash, h1, h2, h3, h4, h5, h6]
    · simp [hp, hc, consume, skip_backslash, h1]
  · simp [hp, skip_backslash]

theorem write_text_backslash_witness :
    write_text (fun _ => none) [BSL, '*', '<', 'a'] 0 = .ok ("*&lt;a".data, 0) :=
  (write_text_backslash (fun _ => none) 0 '*' "<a".data).trans (by decide)

/-- With `PRE` set `write_text` resolves the backslash escapes and applies
the entity mapping, and nothing else. -/
theorem write_text_pre (fs : Files) (s : Nat) (hp : s &&& PRE ≠ 0) :
    ∀ (k : Nat) (t : List Char), t.length ≤ k →
      write_text fs t s = .ok (escaped (unbackslash t), s) := by
  intro k
  induction k with
  | zero =>
    intro t hk
    have ht : t = [] := List.length_eq_zero.mp (by omega)
    subst ht
    rw [write_text_nil]; rfl
  | succ k ih =>
    intro t hk
    cases t with
    | nil => rw [write_text_nil]; rfl
    | cons c r =>
      rw [write_text_eq]
      by_cases hc : c = BSL
      · subst hc
        cases r with
        | nil => simp [hp, skip_backslash, unbackslash, escaped]
        | cons d r' =>
          have := ih r' (by simp at hk; omega)
          simp [hp, skip_backslash, unbackslash, this, emit, escaped, put_escaped_eq_entity]
      · have := ih r (by simp at hk; omega)
        cases r with
        | nil =>
          simp [hp, skip_backslash, unbackslash, hc, this, emit, escaped, put_escaped_eq_entity]
        | cons d r' =>
          simp [hp, skip_backslash, unbackslash, hc, this, emit, escaped, put_escaped_eq_entity]

theorem unbackslash_of_no_backslash : ∀ (k : Nat) (t : List Char), t.length ≤ k → BSL ∉ t →
    unbackslash t = t := by
  intro k
  induction k with
  | zero =>
    intro t hk _
    have ht : t = [] := List.length_eq_zero.mp (by omega)
    subst ht; rfl
  | succ k ih =>
    intro t hk hb
    cases t with
    | nil => rfl
    | cons c r =>
      have hc : c ≠ BSL := fun e => hb (e ▸ List.mem_cons_self c r)
      have hr : BSL ∉ r := fun hm => hb (List.mem_cons_of_mem c hm)
      cases r with
      | nil => simp [unbackslash, hc]
      | cons d r' =>
        have := ih (d :: r') (by simp at hk ⊢; omega) hr
        simp [unbackslash, hc, this]

/-- C12 (amended): with `Pre` set no marker is recognised; a backslash is
dropped and the character behind it emitted, every emitted character goes
through the entity mapping, and the state is returned unchanged. For a text
without backslash the output is exactly its entity mapping. -/
theorem write_text_pre_mode (fs : Files) (s : Nat) (t : List Char) (hp : s &&& PRE ≠ 0) :
    write_text fs t s = .ok (escaped (unbackslash t), s)
    ∧ (BSL ∉ t → write_text fs t s = .ok (escaped t, s)) := by
  have main := write_text_pre fs s hp t.length t (Nat.le_refl _)
  refine ⟨main, fun hb => ?_⟩
  rw [main, unbackslash_of_no_backslash t.length t (Nat.le_refl _) hb]

theorem write_text_pre_mode_witness :
    write_text (fun _ => none) ("a*b_c<".data ++ [BSL, BSL, BSL]) PRE
      = .ok ("a*b_c&lt;".data ++ [BSL], PRE) :=
  (write_text_pre_mode (fun _ => none) PRE ("a*b_c<".data ++ [BSL, BSL, BSL])
    (by decide)).1.trans (by decide)

/-- C12 as stated fails: with `Pre` set, the text made of a backslash and
`a` is rendered as `a` alone, while its character-by-character entity mapping
keeps the backslash. -/
theorem write_text_pre_mode_backslash :
    PRE &&& PRE ≠ 0
    ∧ write_text (fun _ => none) [BSL, 'a'] PRE = .ok (['a'], PRE)
    ∧ escaped [BSL, 'a'] = [BSL, 'a']
    ∧ write_text (fun _ => none) [BSL, 'a'] PRE ≠ .ok (escaped [BSL, 'a'], PRE) := by
  decide

/-- With `CODE` set and `PRE` clear every text without backtick and backslash
is inert. -/
theorem inert_of_code (flags : Nat) (t r : List Char) (hc : flags &&& CODE ≠ 0)
    (hk : BTK ∉ t) (hb : BSL ∉ t) : inert flags t r := by
  induction t with
  | nil => trivial
  | cons c cs ih =>
    refine ⟨⟨fun e => hb (e ▸ List.mem_cons_self c cs),
      fun _ => ⟨fun e => hk (e ▸ List.mem_cons_self c cs), fun h0 => absurd h0 hc⟩⟩,
      ih (fun hm => hk (List.mem_cons_of_mem c hm)) (fun hm => hb (List.mem_cons_of_mem c hm))⟩

/-- The backtick rule of `write_text` (odie.c:116). -/
theorem write_text_backtick (fs : Files) (flags : Nat) (q : List Char)
    (hp : flags &&& PRE = 0) :
    write_text fs (BTK :: q) flags
      = emit (edge flags CODE "code".data).1
          (write_text fs q (edge flags CODE "code".data).2) := by
  rw [write_text_eq]
  simp [hp, consume]

/-- C17: with `Code` set and `Pre` clear a text without backtick and
backslash is emitted as its entity mapping, `~~`, `*`, `_`, `@` and `[`
included, and the state is returned unchanged; so a backtick, such a text and
a backtick, read with `Pre` and `Code` clear, yield the text inside
`<code>` and `</code>`. -/
theorem write_text_in_code (fs : Files) (s : Nat) (t : List Char)
    (hp : s &&& PRE = 0) (hk : BTK ∉ t) (hb : BSL ∉ t) :
    (s &&& CODE ≠ 0 → write_text fs t s = .ok (escaped t, s))
    ∧ (s &&& CODE = 0 →
        write_text fs (BTK :: t ++ [BTK]) s
          = .ok ("<code>".data ++ escaped t ++ "</code>".data, s)) := by
  constructor
  · intro hc
    exact write_text_inert fs s t (inert_of_code s t [] hc hk hb)
  · intro hc
    have hp' : (s ||| CODE) &&& PRE = 0 :=
      (or_bit_and_other s (i := 1) (j := 0) (by decide)).trans hp
    have hc' : (s ||| CODE) &&& CODE ≠ 0 := or_bit_and_self s 1
    have hback : and_not (s ||| CODE) CODE = s := and_not_or_bit s 1 hc
    rw [List.cons_append, write_text_backtick fs s _ hp, edge_open _ hc]
    simp only []
    rw [write_text_inert_append fs _ t _ (inert_of_code _ t _ hc' hk hb),
      write_text_backtick fs _ _ hp', edge_close _ hc']
    simp only []
    rw [hback, write_text_nil]
    simp [emit]

theorem write_text_in_code_witness :
    write_text (fun _ => none) "~~*_@[x](y)".data CODE = .ok ("~~*_@[x](y)".data, CODE)
    ∧ write_text (fun _ => none) (BTK :: "*a*".data ++ [BTK]) 0
        = .ok ("<code>*a*</code>".data, 0) :=
  ⟨(write_text_in_code (fun _ => none) CODE "~~*_@[x](y)".data (by decide) (by decide)
      (by decide)).1 (by decide),
    (write_text_in_code (fun _ => none) 0 "*a*".data (by decide) (by decide)
      (by decide)).2 (by decide)⟩

theorem edge_xor (s i : Nat) (tag : List Char) :
    (edge s (1 <<< i) tag).2 = s ^^^ 1 <<< i := by
  apply Nat.eq_of_testBit_eq
  intro k
  rw [testBit_edge, Nat.testBit_xor, Nat.one_shiftLeft, Nat.testBit_two_pow]
  by_cases hk : k = i
  · subst hk; simp
  · have : ¬ i = k := fun e => hk e.symm
    simp [hk, this]

/-- C18: a line that starts with three backticks emits `<pre>` when `Pre` is
clear and `</pre>` when it is set, nothing for the rest of the line, and
returns the state with the `Pre` flag flipped and every other flag as it
was. -/
theorem process_line_fence_toggle (fs : Files) (s : Nat) (r : List Char) :
    process_line fs ([BTK, BTK, BTK] ++ r) s
        = .ok (if s &&& PRE = 0 then "<pre>".data else "</pre>".data, s ^^^ PRE)
    ∧ ((s ^^^ PRE) &&& PRE = 0 ↔ s &&& PRE ≠ 0)
    ∧ ∀ j, j ≠ 0 → (s ^^^ PRE) &&& 1 <<< j = s &&& 1 <<< j := by
  have hx : (edge s PRE "pre".data).2 = s ^^^ PRE := edge_xor s 0 _
  refine ⟨?_, ?_, ?_⟩
  · rw [process_line_fence, ← hx]
    by_cases hp : s &&& PRE = 0
    · rw [edge_open _ hp]; simp [hp]
    · rw [edge_close _ hp]; simp [hp]
  · rw [← hx]
    show (edge s (1 <<< 0) "pre".data).2 &&& 1 <<< 0 = 0 ↔ s &&& 1 <<< 0 ≠ 0
    rw [bit_and_eq_zero, bit_and_ne_zero, testBit_edge]; simp
  · intro j hj
    rw [← hx]
    show (edge s (1 <<< 0) "pre".data).2 &&& 1 <<< j = s &&& 1 <<< j
    apply Nat.eq_of_testBit_eq
    intro k
    simp only [Nat.testBit_and, testBit_edge]
    by_cases hk : k = 0
    · subst hk
      have : (1 <<< j).testBit 0 = false := by
        rw [Nat.one_shiftLeft, Nat.testBit_two_pow]; simpa using hj
      simp [this]
    · simp [hk]

theorem process_line_fence_toggle_witness :
    process_line (fun _ => none) ([BTK, BTK, BTK] ++ "c *x*".data) (PRE ||| LIST)
      = .ok ("</pre>".data, LIST) :=
  (process_line_fence_toggle (fun _ => none) (PRE ||| LIST) "c *x*".data).1.trans (by decide)

/-! ## Defects -/

/-- C20, the code at the failing input: on a source that ends in a backslash
`copy_until` copies the backslash, then copies the terminator and steps past
it, so the scan goes on behind the end of the string; `process_line` reaches
this on the line made of `[` and a backslash. -/
theorem copy_until_backslash_at_end :
    copy_until 512 [BSL] "]".data = .error .overread
    ∧ copy_until 512 ("ab".data ++ [BSL]) "\n :]*".data = .error .overread
    ∧ process_line (fun _ => none) ['[', BSL] 0 = .error .overread := by
  decide

/-- No name that `main` lists gets an href that fits its block, and the
characters written never spell the name `process_file` gives the page. -/
theorem html_filename_mismatch (d_name : List Char) (h : 2 ≤ d_name.length) :
    html_filename d_name = .error .overflow
    ∧ html_filename_chars d_name ≠ d_name ++ ".html".data := by
  have hl : (html_filename_chars d_name).length = d_name.length + 2 := by
    simp [html_filename_chars]; omega
  constructor
  · unfold html_filename
    rw [hl]
    simp
  · intro e
    have := congrArg List.length e
    rw [hl] at this
    simp at this

/-- C14, the code at the failing input: for `post.md`, which `main` lists,
the two `strcpy` calls spell `post.html` (one byte more than the block
holds), while `process_file` writes `post.md.html`. -/
theorem index_href_post :
    index_lists "post.md".data = true
    ∧ html_filename_chars "post.md".data = "post.html".data
    ∧ html_filename "post.md".data = .error .overflow
    ∧ output_filename "post.md".data = "post.md.html".data
    ∧ output_filename (entry_path ".".data "post.md".data) = "./post.md.html".data
    ∧ html_filename_chars "post.md".data ≠ output_filename "post.md".data := by
  decide

/-- C15, the code at the failing input: for a link whose text opens an
emphasis, `write_link` emits `<em>` and returns the flags it was given, so
the output holds one `<em>` and no `</em>` although `Em` is clear before and
after. -/
theorem write_text_link_drops_flags :
    '@' ∉ "[*a](u)".data ∧ 0 &&& PRE = 0
    ∧ write_text (fun _ => none) "[*a](u)".data 0
        = .ok ("<a href=\"u\"><em>a</a>".data, 0)
    ∧ occurrences "<em>".data "<a href=\"u\"><em>a</a>".data = 1
    ∧ occurrences "</em>".data "<a href=\"u\"><em>a</a>".data = 0
    ∧ 0 &&& EM = 0 := by
  decide

/-! ## The shape of a processed line -/

/-- A line outside a fence: the block rules, the text, the heading closers. -/
theorem process_line_normal (fs : Files) (line : List Char) (flags : Nat)
    (hf : consume line [BTK, BTK, BTK] = none) (hp : flags &&& PRE = 0) :
    process_line fs line flags
      = match write_text fs (block_rules line flags).2.1 (block_rules line flags).2.2 with
        | .error e => .error e
        | .ok (ot, f6) =>
          .ok ((block_rules line flags).1 ++ ot ++ (close_headings f6).1,
            (close_headings f6).2) := by
  unfold process_line block_rules heading_rules close_headings
  rw [hf]
  simp only [hp, ne_eq, not_true_eq_false, if_false]
  cases write_text fs _ _ with
  | error e => rfl
  | ok v => simp [List.append_assoc]

theorem heading_close_self (i s : Nat) (tag : List Char) :
    (heading_close (1 <<< i) tag s).2 &&& 1 <<< i = 0 := by
  unfold heading_close
  by_cases h : s &&& 1 <<< i ≠ 0
  · rw [if_pos h, edge_close _ h]
    exact and_not_bit_and_self s i
  · rw [if_neg h]
    simpa using h

theorem heading_close_other (s : Nat) (tag : List Char) {i j : Nat} (hij : i ≠ j) :
    (heading_close (1 <<< i) tag s).2 &&& 1 <<< j = s &&& 1 <<< j := by
  unfold heading_close
  by_cases h : s &&& 1 <<< i ≠ 0
  · rw [if_pos h, edge_close _ h]
    exact and_not_bit_and_other s hij
  · rw [if_neg h]

/-- After the three closers no heading flag is set. -/
theorem close_headings_clear (f : Nat) :
    (close_headings f).2 &&& H1 = 0 ∧ (close_headings f).2 &&& H2 = 0
      ∧ (close_headings f).2 &&& H3 = 0 := by
  unfold close_headings
  refine ⟨?_, ?_, ?_⟩
  · show (heading_close (1 <<< 7) _ (heading_close (1 <<< 6) _
      (heading_close (1 <<< 5) _ f).2).2).2 &&& 1 <<< 5 = 0
    rw [heading_close_other _ _ (by decide), heading_close_other _ _ (by decide)]
    exact heading_close_self 5 f _
  · show (heading_close (1 <<< 7) _ (heading_close (1 <<< 6) _
      (heading_close (1 <<< 5) _ f).2).2).2 &&& 1 <<< 6 = 0
    rw [heading_close_other _ _ (by decide)]
    exact heading_close_self 6 _ _
  · exact heading_close_self 7 _ _

theorem edge_other (s : Nat) (tag : List Char) {i j : Nat} (hij : i ≠ j) :
    (edge s (1 <<< i) tag).2 &&& 1 <<< j = s &&& 1 <<< j := by
  unfold edge
  by_cases h : s &&& 1 <<< i ≠ 0
  · rw [if_pos h]; exact and_not_bit_and_other s hij
  · rw [if_neg h]; exact or_bit_and_other s hij

/-- One line keeps the heading flags clear; when it returns no state, the
cause is not the budget of the model. -/
theorem process_line_headings (fs : Files) (line : List Char) (s : Nat)
    (h1 : s &&& H1 = 0) (h2 : s &&& H2 = 0) (h3 : s &&& H3 = 0) :
    match process_line fs line s with
    | .ok (_, f) => f &&& H1 = 0 ∧ f &&& H2 = 0 ∧ f &&& H3 = 0
    | .error e => e ≠ .fuel := by
  cases hf : consume line [BTK, BTK, BTK] with
  | some q =>
    have : process_line fs line s = .ok (edge s PRE "pre".data) := by
      unfold process_line; rw [hf]
    rw [this]
    exact ⟨(edge_other s _ (i := 0) (j := 5) (by decide)).trans h1,
      (edge_other s _ (i := 0) (j := 6) (by decide)).trans h2,
      (edge_other s _ (i := 0) (j := 7) (by decide)).trans h3⟩
  | none =>
    by_cases hp : s &&& PRE = 0
    · rw [process_line_normal fs line s hf hp]
      cases hw : write_text fs (block_rules line s).2.1 (block_rules line s).2.2 with
      | error e =>
        intro he
        subst he
        exact write_text_budget fs _ _ hw
      | ok v =>
        obtain ⟨ot, f6⟩ := v
        exact close_headings_clear f6
    · have : process_line fs line s = write_text fs line s := by
        unfold process_line; rw [hf]; simp [hp]
      rw [this, write_text_pre fs s hp line.length line (Nat.le_refl _)]
      exact ⟨h1, h2, h3⟩

theorem process_lines_headings (fs : Files) :
    ∀ (lines : List (List Char)) (s : Nat),
      s &&& H1 = 0 → s &&& H2 = 0 → s &&& H3 = 0 →
      match process_lines fs lines s with
      | .ok (_, f) => f &&& H1 = 0 ∧ f &&& H2 = 0 ∧ f &&& H3 = 0
      | .error e => e ≠ .fuel := by
  intro lines
  induction lines with
  | nil => intro s h1 h2 h3; exact ⟨h1, h2, h3⟩
  | cons line rest ih =>
    intro s h1 h2 h3
    have hl := process_line_headings fs line s h1 h2 h3
    rw [process_lines]
    cases hp : process_line fs line s with
    | error e => rw [hp] at hl; exact hl
    | ok v =>
      obtain ⟨o, f1⟩ := v
      rw [hp] at hl
      have hr := ih f1 hl.1 hl.2.1 hl.2.2
      simp only []
      cases hq : process_lines fs rest f1 with
      | error e => rw [hq] at hr; exact hr
      | ok w =>
        obtain ⟨o2, f2⟩ := w
        rw [hq] at hr
        exact hr

/-- C13: starting from the empty state, after each line of any sequence of
lines (after the first `k` lines, for every `k`) the state has none of `H1`,
`H2`, `H3` set; when the lines return no state the cause is undefined
behaviour of the C program, never the budget of the model. -/
theorem headings_never_span (fs : Files) (lines : List (List Char)) (k : Nat) :
    match process_lines fs (lines.take k) 0 with
    | .ok (_, f) => f &&& H1 = 0 ∧ f &&& H2 = 0 ∧ f &&& H3 = 0
    | .error e => e ≠ .fuel :=
  process_lines_headings fs (lines.take k) 0 (by decide) (by decide) (by decide)

theorem headings_never_span_witness :
    process_lines (fun _ => none) (["# ## a".data, "b".data, "### c".data].take 2) 0
        = .ok ("<h1><h2>a</h1></h2>b".data, 0)
    ∧ (0 &&& H1 = 0 ∧ 0 &&& H2 = 0 ∧ 0 &&& H3 = 0) := by
  have h := headings_never_span (fun _ => none) ["# ## a".data, "b".data, "### c".data] 2
  have e : process_lines (fun _ => none) (["# ## a".data, "b".data, "### c".data].take 2) 0
      = .ok ("<h1><h2>a</h1></h2>b".data, 0) := by decide
  rw [e] at h
  exact ⟨e, h⟩

/-! ## Quotes -/

theorem consume_head_ne {t : List Char} {e : Char} (h : ∀ c, t.head? = some c → c ≠ e)
    (es : List Char) : consume t (e :: es) = none := by
  cases t with
  | nil => rfl
  | cons c cs => exact consume_cons_ne (h c rfl) _ _

theorem skip_space_append {w t : List Char} (hw : ∀ c ∈ w, isspace c = true)
    (ht : ∀ c, t.head? = some c → isspace c = false) : skip_space (w ++ t) = t := by
  induction w with
  | nil =>
    cases t with
    | nil => rfl
    | cons c cs => simp [skip_space, ht c rfl]
  | cons c cs ih =>
    rw [List.cons_append, skip_space, if_pos (hw c (List.mem_cons_self c cs))]
    exact ih (fun d hd => hw d (List.mem_cons_of_mem c hd))

theorem lt_not_mem_put_escaped (c : Char) : '<' ∉ put_escaped c := by
  unfold put_escaped
  split
  · decide
  split
  · decide
  split
  · decide
  split
  · decide
  split
  · decide
  · rename_i h _ _ _ _
    simpa using fun e : '<' = c => h e.symm

theorem lt_not_mem_escaped (t : List Char) : '<' ∉ escaped t := by
  induction t with
  | nil => simp [escaped]
  | cons c cs ih =>
    have := lt_not_mem_put_escaped c
    rw [put_escaped_eq_entity] at this
    simp only [escaped, List.map_cons, List.flatten_cons, List.mem_append, not_or]
    exact ⟨this, ih⟩

/-- A stretch without `<` holds no start of a tag. -/
theorem occurrences_skip (ps a b : List Char) (ha : '<' ∉ a) :
    occurrences ('<' :: ps) (a ++ b) = occurrences ('<' :: ps) b := by
  induction a with
  | nil => rfl
  | cons c cs ih =>
    have hc : ¬ '<' = c := fun e => ha (e ▸ List.mem_cons_self c cs)
    rw [List.cons_append, occurrences, ih (fun hm => ha (List.mem_cons_of_mem c hm))]
    simp [List.isPrefixOf, hc]

/-- The condition of C19 on one quote line: whitespace `w` behind the marker
and a non-empty markup-free text `t` that starts with neither whitespace nor
`#`. -/
theorem quote_line_facts {w t : List Char}
    (h : (∀ c ∈ w, isspace c = true) ∧ no_markup t ∧ t ≠ []
      ∧ ∀ c, t.head? = some c → isspace c = false ∧ c ≠ '#') :
    skip_space (w ++ t) = t ∧ consume t "* ".data = none
      ∧ (∀ es, consume t ('#' :: es) = none) := by
  obtain ⟨hw, hm, hne, hh⟩ := h
  refine ⟨skip_space_append hw (fun c hc => (hh c hc).1), ?_, fun es => ?_⟩
  · apply consume_head_ne
    intro c hc
    cases t with
    | nil => cases hc
    | cons d ds =>
      cases hc
      exact (hm.1 c (List.mem_cons_self c ds)).2.1
  · exact consume_head_ne (fun c hc => (hh c hc).2) es

/-- The first quote line opens the quote. -/
theorem process_line_first_quote (fs : Files) (w t : List Char)
    (h : (∀ c ∈ w, isspace c = true) ∧ no_markup t ∧ t ≠ []
      ∧ ∀ c, t.head? = some c → isspace c = false ∧ c ≠ '#') :
    process_line fs ('>' :: (w ++ t)) 0 = .ok ("<blockquote>".data ++ escaped t, QUOTE) := by
  obtain ⟨f1, f2, f3⟩ := quote_line_facts h
  have hw : ∀ s, write_text fs t s = .ok (escaped t, s) := fun s =>
    write_text_plain fs s t h.2.1
  have c1 : ¬ ('>' : Char) = BTK := by decide
  simp +decide [process_line, quote_rule, list_rule, heading_rule, heading_close, consume,
    skip_space, isspace, f1, f2, f3, hw, c1, h.2.2.1, edge, PRE, QUOTE, LIST, H1, H2, H3, and_not]

/-- A later quote line emits its text only. -/
theorem process_line_next_quote (fs : Files) (w t : List Char)
    (h : (∀ c ∈ w, isspace c = true) ∧ no_markup t ∧ t ≠ []
      ∧ ∀ c, t.head? = some c → isspace c = false ∧ c ≠ '#') :
    process_line fs ('>' :: (w ++ t)) QUOTE = .ok (escaped t, QUOTE) := by
  obtain ⟨f1, f2, f3⟩ := quote_line_facts h
  have hw : ∀ s, write_text fs t s = .ok (escaped t, s) := fun s =>
    write_text_plain fs s t h.2.1
  have c1 : ¬ ('>' : Char) = BTK := by decide
  simp +decide [process_line, quote_rule, list_rule, heading_rule, heading_close, consume,
    skip_space, isspace, f1, f2, f3, hw, c1, h.2.2.1, edge, PRE, QUOTE, LIST, H1, H2, H3, and_not]

/-- A blank line read inside an open quote. -/
theorem process_line_blank_in_quote (fs : Files) (b : List Char)
    (hb : ∀ c ∈ b, isspace c = true) :
    process_line fs b QUOTE = .ok ("</blockquote>".data ++ "<p>".data, 0) := by
  have h1 : consume b [BTK, BTK, BTK] = none := consume_blank hb BTK (by decide) _
  have h2 := skip_space_blank hb
  have h3 := write_text_nil fs
  simp +decide [process_line, quote_rule, list_rule, heading_rule, heading_close, consume,
    h1, h2, h3, edge, PRE, QUOTE, LIST, H1, H2, H3, and_not]

/-- Quote lines after the first, then the blank line. -/
theorem process_lines_quotes (fs : Files) (b : List Char) (hb : ∀ c ∈ b, isspace c = true) :
    ∀ qs : List (List Char × List Char),
      (∀ q ∈ qs, (∀ c ∈ q.1, isspace c = true) ∧ no_markup q.2 ∧ q.2 ≠ []
        ∧ ∀ c, q.2.head? = some c → isspace c = false ∧ c ≠ '#') →
      process_lines fs (qs.map (fun q => '>' :: (q.1 ++ q.2)) ++ [b]) QUOTE
        = .ok ((qs.map (fun q => escaped q.2)).flatten
            ++ ("</blockquote>".data ++ "<p>".data), 0) := by
  intro qs
  induction qs with
  | nil =>
    intro _
    simp [process_lines, process_line_blank_in_quote fs b hb, emit]
  | cons q qs ih =>
    intro h
    have hq := h q (List.mem_cons_self q qs)
    have := ih (fun u hu => h u (List.mem_cons_of_mem q hu))
    rw [List.map_cons, List.cons_append, process_lines,
      process_line_next_quote fs q.1 q.2 hq]
    simp only []
    rw [this]
    simp [emit]

theorem lt_not_mem_escaped_all (qs : List (List Char × List Char)) :
    '<' ∉ (qs.map (fun q => escaped q.2)).flatten := by
  induction qs with
  | nil => simp
  | cons q qs ih =>
    simp only [List.map_cons, List.flatten_cons, List.mem_append, not_or]
    exact ⟨lt_not_mem_escaped q.2, ih⟩

/-- C19: one or more quote lines, each `>` then whitespace `w` then a
non-empty markup-free text that starts with neither whitespace nor `#`,
followed by a blank line and processed from the empty state, yield
`<blockquote>`, the entity mappings of the texts in order (marker and
whitespace stripped), `</blockquote>` and the paragraph break of the blank
line; the output holds exactly one `<blockquote>` and exactly one
`</blockquote>`, and the final state is empty. -/
theorem process_lines_quote (fs : Files) (q : List Char × List Char)
    (qs : List (List Char × List Char)) (b : List Char)
    (h : ∀ u ∈ q :: qs, (∀ c ∈ u.1, isspace c = true) ∧ no_markup u.2 ∧ u.2 ≠ []
      ∧ ∀ c, u.2.head? = some c → isspace c = false ∧ c ≠ '#')
    (hb : ∀ c ∈ b, isspace c = true) :
    process_lines fs ((q :: qs).map (fun u => '>' :: (u.1 ++ u.2)) ++ [b]) 0
        = .ok ("<blockquote>".data ++ ((q :: qs).map (fun u => escaped u.2)).flatten
            ++ "</blockquote>".data ++ "<p>".data, 0)
    ∧ occurrences "<blockquote>".data
        ("<blockquote>".data ++ ((q :: qs).map (fun u => escaped u.2)).flatten
            ++ "</blockquote>".data ++ "<p>".data) = 1
    ∧ occurrences "</blockquote>".data
        ("<blockquote>".data ++ ((q :: qs).map (fun u => escaped u.2)).flatten
            ++ "</blockquote>".data ++ "<p>".data) = 1 := by
  have hlt := lt_not_mem_escaped_all (q :: qs)
  refine ⟨?_, ?_, ?_⟩
  · have hq := h q (List.mem_cons_self q qs)
    have := process_lines_quotes fs b hb qs (fun u hu => h u (List.mem_cons_of_mem q hu))
    rw [List.map_cons, List.cons_append, process_lines,
      process_line_first_quote fs q.1 q.2 hq]
    simp only []
    rw [this]
    simp [emit]
  · generalize ((q :: qs).map (fun u => escaped u.2)).flatten = E at hlt ⊢
    have e : "<blockquote>".data ++ E ++ "</blockquote>".data ++ "<p>".data
        = '<' :: (("blockquote>".data ++ E) ++ "</blockquote><p>".data) := by simp
    have hs := occurrences_skip "blockquote>".data ("blockquote>".data ++ E)
      "</blockquote><p>".data (by
        simp only [List.mem_append, not_or]; exact ⟨by decide, hlt⟩)
    rw [e, show "<blockquote>".data = '<' :: "blockquote>".data from rfl, occurrences, hs]
    simp +decide [List.isPrefixOf]
  · generalize ((q :: qs).map (fun u => escaped u.2)).flatten = E at hlt ⊢
    have e : "<blockquote>".data ++ E ++ "</blockquote>".data ++ "<p>".data
        = '<' :: (("blockquote>".data ++ E) ++ "</blockquote><p>".data) := by simp
    have hs := occurrences_skip "/blockquote>".data ("blockquote>".data ++ E)
      "</blockquote><p>".data (by
        simp only [List.mem_append, not_or]; exact ⟨by decide, hlt⟩)
    rw [e, show "</blockquote>".data = '<' :: "/blockquote>".data from rfl, occurrences, hs]
    simp +decide [List.isPrefixOf]

theorem process_lines_quote_witness :
    process_lines (fun _ => none) ["> one".data, ">two".data, "\n".data] 0
      = .ok ("<blockquote>onetwo</blockquote><p>".data, 0) :=
  (process_lines_quote (fun _ => none) (" ".data, "one".data) [([], "two".data)] "\n".data
    (by decide) (by decide)).1

/-! ## Heading tags in the output -/

/-- The three heading tests are three separate `if`s (odie.c:167-169): the
line `# ## x` passes the first and the second, and both headings are opened
and then closed in the order `</h1></h2>`. -/
theorem process_line_chained_headings :
    chained (heading_text "# ## x".data 0) = true
    ∧ process_line (fun _ => none) "# ## x".data 0 = .ok ("<h1><h2>x</h1></h2>".data, 0)
    ∧ heading_opens "<h1><h2>x</h1></h2>".data = 2 := by
  decide

end Odie
